import Mathlib

/-!
# Code monitor scroller of `script.js`

A shallow embedding of the "code monitor" animation of `src/script.js`
(lines 60-106): the frame callback `tick`, the speed hooks `setFast` and
`setSlow`, and the `pointermove` handler of the monitor.

The code is embedded twice.  In namespace `CodeMonitor` numbers are exact
rationals (the literal `0.7` is `7 / 10`, timestamps are milliseconds): the
statements on the scroll offset, the wrap step and the range of the speed
formula are proved there.  In namespace `CodeMonitor.Binary64` numbers are
binary64 values with rounding, infinities and `NaN`: the statements on the
smoothing step, on the values of the pointer-move formula and on the lower
bound of the current speed are proved there.
-/

namespace CodeMonitor

/-! ## State -/

/-- Line 63: `const SPEED_SLOW = 18;`. -/
def SPEED_SLOW : ℚ := 18

/-- Line 64: `const SPEED_FAST = 220;`. -/
def SPEED_FAST : ℚ := 220

/-- The mutable variables of lines 61-66. -/
structure State where
  speedTarget : ℚ
  speedCurrent : ℚ
  pos : ℚ
  last : ℚ
deriving DecidableEq

/-- The values given at lines 61-66; `t0` is what `performance.now()` returned. -/
def init (t0 : ℚ) : State :=
  let speedTarget : ℚ := 18
  { speedTarget := speedTarget, speedCurrent := speedTarget, pos := 0, last := t0 }

/-- The bounding rectangle of the monitor, as far as the handler reads it. -/
structure Rect where
  top : ℚ
  height : ℚ
deriving DecidableEq

/-! ## The frame callback -/

/-- Line 71: `const dt = (now - last) / 1000;`. -/
def frameDelta (s : State) (now : ℚ) : ℚ :=
  (now - s.last) / 1000

/-- The right-hand side of line 74:
`speedCurrent += (speedTarget - speedCurrent) * Math.min(1, dt * 8)`. -/
def smooth (speedCurrent speedTarget dt : ℚ) : ℚ :=
  speedCurrent + (speedTarget - speedCurrent) * min 1 (dt * 8)

/-- The wrap step of line 76: `if (pos >= height) pos -= height;`. -/
def wrap (height pos : ℚ) : ℚ :=
  if pos ≥ height then pos - height else pos

/-- The body of `tick(now)` (lines 70-76) on the variables; the two style
writes of lines 77-78 render `pos` and change none of them. -/
def tick (height : ℚ) (s : State) (now : ℚ) : State :=
  let dt := frameDelta s now
  let speedCurrent := smooth s.speedCurrent s.speedTarget dt
  let pos := s.pos + speedCurrent * dt
  { speedTarget := s.speedTarget
    speedCurrent := speedCurrent
    pos := wrap height pos
    last := now }

/-! ## Speed controls -/

/-- Line 86: `function setFast() { speedTarget = SPEED_FAST; }`. -/
def setFast (s : State) : State :=
  { s with speedTarget := SPEED_FAST }

/-- Line 87: `function setSlow() { speedTarget = SPEED_SLOW; }`. -/
def setSlow (s : State) : State :=
  { s with speedTarget := SPEED_SLOW }

/-- The value of `variable` at line 100 as a function of the fraction `t`. -/
def pointerVariable (t : ℚ) : ℚ :=
  SPEED_SLOW + (SPEED_FAST - SPEED_SLOW) * (1 - |t - 7 / 10|)

/-- The value of `t` at line 98: `y / r.height` with
`y = Math.max(0, Math.min(r.height, e.clientY - r.top))`. -/
def pointerFraction (clientY : ℚ) (r : Rect) : ℚ :=
  let y := max 0 (min r.height (clientY - r.top))
  y / r.height

/-- The `pointermove` listener of lines 95-102. -/
def pointermove (s : State) (clientY : ℚ) (r : Rect) : State :=
  let t := pointerFraction clientY r
  let variable0 := pointerVariable t
  { s with speedTarget := max SPEED_SLOW (min SPEED_FAST variable0) }

/-! ## Traces -/

/-- What the page delivers to the animator: a frame callback with its
timestamp, or one of the listeners of lines 89-106 (`mouseenter`, `focus` and
`touchstart` call `setFast`; `mouseleave`, `blur` and `touchend` call
`setSlow`). -/
inductive Event where
  | frame (now : ℚ)
  | fast
  | slow
  | move (clientY : ℚ) (r : Rect)
deriving DecidableEq

/-- One event applied to the variables. -/
def step (height : ℚ) (s : State) : Event → State
  | .frame now => tick height s now
  | .fast => setFast s
  | .slow => setSlow s
  | .move clientY r => pointermove s clientY r

/-- A whole trace, left to right. -/
def run (height : ℚ) (s : State) : List Event → State
  | [] => s
  | e :: es => run height (step height s e) es

/-- Every `pointermove` of the trace reads a rectangle of positive height. -/
def PositiveRects : List Event → Prop
  | [] => True
  | .move _ r :: es => 0 < r.height ∧ PositiveRects es
  | _ :: es => PositiveRects es

/-- Every frame of the trace has a timestamp not before the previous one and
advances `pos` by less than `height` (the smoothed speed times the frame
delta stays below one content height), and every `pointermove` reads a
rectangle of positive height. -/
def ShortFrames (height : ℚ) : State → List Event → Prop
  | _, [] => True
  | s, e :: es =>
    (match e with
      | .frame now =>
          0 ≤ frameDelta s now ∧
          smooth s.speedCurrent s.speedTarget (frameDelta s now) * frameDelta s now < height
      | .move _ r => 0 < r.height
      | _ => True) ∧ ShortFrames height (step height s e) es

/-- Both speed variables within the two speed constants. -/
def SpeedsBounded (s : State) : Prop :=
  SPEED_SLOW ≤ s.speedTarget ∧ s.speedTarget ≤ SPEED_FAST ∧
  SPEED_SLOW ≤ s.speedCurrent ∧ s.speedCurrent ≤ SPEED_FAST


/-! ## The same code on binary64 numbers

The definitions below repeat lines 61-102 with JavaScript's number arithmetic:
every operator rounds its exact result to the nearest binary64 value (ties to
the even significand), overflows to an infinity, and propagates `NaN`.  Zero
carries no sign: the divisors of the code are 1000 and a rectangle height,
neither of which is a negative zero, and a signed zero changes none of its
comparisons. -/

namespace Binary64

/-! ### Rounding -/

/-- Floor of the base-2 logarithm of a positive natural number, by repeated
halving; the first argument bounds the number of halvings. -/
def log2Fuel : ℕ → ℕ → ℕ
  | 0, _ => 0
  | fuel + 1, n => if n < 2 then 0 else log2Fuel fuel (n / 2) + 1

/-- Floor of the base-2 logarithm of `|x|` for a rational `x ≠ 0`. -/
def ilog2 (x : ℚ) : ℤ :=
  let e0 : ℤ := (log2Fuel x.num.natAbs x.num.natAbs : ℤ) - (log2Fuel x.den x.den : ℤ)
  if (2 : ℚ) ^ e0 ≤ |x| then e0 else e0 - 1

/-- Exponent of the spacing of binary64 values around `x`: 52 below the
exponent of `x`, and never below that of the subnormal range. -/
def quantumExp (x : ℚ) : ℤ :=
  max (ilog2 x) (-1022) - 52

/-- Nearest integer, a tie going to the even one. -/
def roundEven (y : ℚ) : ℤ :=
  let f := ⌊y⌋
  if y - f < 1 / 2 then f
  else if 1 / 2 < y - f then f + 1
  else if f % 2 = 0 then f else f + 1

/-- Nearest binary64 value of a positive rational, exponent range unbounded
above. -/
def rndPos (x : ℚ) : ℚ :=
  roundEven (x / 2 ^ quantumExp x) * 2 ^ quantumExp x

/-- Nearest binary64 value of a rational, exponent range unbounded above. -/
def rnd (x : ℚ) : ℚ :=
  if x = 0 then 0 else if x < 0 then -rndPos (-x) else rndPos x

/-- A JavaScript number: `NaN`, the two infinities, or a finite value. -/
inductive Num where
  | nan
  | ninf
  | pinf
  | fin (q : ℚ)
deriving DecidableEq

/-- Rounding of an exact result to a number: from `2 ^ 1024` on, the rounded
magnitude is an infinity. -/
def round64 (x : ℚ) : Num :=
  if (2 : ℚ) ^ 1024 ≤ rnd x then .pinf
  else if rnd x ≤ -(2 : ℚ) ^ 1024 then .ninf
  else .fin (rnd x)

/-- A rational that is a binary64 value: rounding leaves it unchanged. -/
def IsDouble (q : ℚ) : Prop := rnd q = q

/-! ### Operators -/

/-- Sign of a number: `1`, `0` or `-1`, and `0` for `NaN`. -/
def sign : Num → ℤ
  | .nan => 0
  | .ninf => -1
  | .pinf => 1
  | .fin q => if 0 < q then 1 else if q < 0 then -1 else 0

/-- The infinity of the given sign, and `NaN` for sign `0`. -/
def infOfSign (z : ℤ) : Num :=
  if z = 0 then .nan else if 0 < z then .pinf else .ninf

/-- Unary minus. -/
def neg : Num → Num
  | .nan => .nan
  | .ninf => .pinf
  | .pinf => .ninf
  | .fin q => .fin (-q)

/-- The operator `+`. -/
def add : Num → Num → Num
  | .fin a, .fin b => round64 (a + b)
  | .nan, _ => .nan
  | _, .nan => .nan
  | .pinf, .ninf => .nan
  | .ninf, .pinf => .nan
  | .pinf, _ => .pinf
  | _, .pinf => .pinf
  | .ninf, _ => .ninf
  | _, .ninf => .ninf

/-- The operator `-`. -/
def sub (a b : Num) : Num := add a (neg b)

/-- The operator `*`. -/
def mul : Num → Num → Num
  | .fin a, .fin b => round64 (a * b)
  | .nan, _ => .nan
  | _, .nan => .nan
  | a, b => infOfSign (sign a * sign b)

/-- The operator `/`; `0 / 0` is `NaN`, and a zero divisor counts as `+0`. -/
def div : Num → Num → Num
  | .fin a, .fin b => if b = 0 then infOfSign (sign (.fin a)) else round64 (a / b)
  | .nan, _ => .nan
  | _, .nan => .nan
  | .fin _, _ => .fin 0
  | a, .fin b => if b < 0 then infOfSign (-sign a) else infOfSign (sign a)
  | _, _ => .nan

/-- The comparison `a <= b`, false when either side is `NaN`. -/
def le : Num → Num → Bool
  | .fin a, .fin b => decide (a ≤ b)
  | .nan, _ => false
  | _, .nan => false
  | .ninf, _ => true
  | _, .pinf => true
  | _, _ => false

/-- The comparison `a < b`, false when either side is `NaN`. -/
def lt : Num → Num → Bool
  | .fin a, .fin b => decide (a < b)
  | .nan, _ => false
  | _, .nan => false
  | .pinf, _ => false
  | _, .ninf => false
  | _, _ => true

/-- The function `Math.min` of two arguments: `NaN` if either is. -/
def mathMin : Num → Num → Num
  | .nan, _ => .nan
  | _, .nan => .nan
  | a, b => if le a b then a else b

/-- The function `Math.max` of two arguments: `NaN` if either is. -/
def mathMax : Num → Num → Num
  | .nan, _ => .nan
  | _, .nan => .nan
  | a, b => if le a b then b else a

/-- The function `Math.abs`. -/
def mathAbs : Num → Num
  | .nan => .nan
  | .ninf => .pinf
  | .pinf => .pinf
  | .fin q => .fin |q|

/-! ### The code -/

/-- Line 63: `const SPEED_SLOW = 18;`. -/
def SPEED_SLOW : Num := .fin 18

/-- Line 64: `const SPEED_FAST = 220;`. -/
def SPEED_FAST : Num := .fin 220

/-- The mutable variables of lines 61-66. -/
structure State where
  speedTarget : Num
  speedCurrent : Num
  pos : Num
  last : Num
deriving DecidableEq

/-- The values given at lines 61-66; `t0` is what `performance.now()` returned. -/
def init (t0 : Num) : State :=
  let speedTarget : Num := .fin 18
  { speedTarget := speedTarget, speedCurrent := speedTarget, pos := .fin 0, last := t0 }

/-- The bounding rectangle of the monitor, as far as the handler reads it. -/
structure Rect where
  top : Num
  height : Num
deriving DecidableEq

/-- Line 71: `const dt = (now - last) / 1000;`. -/
def frameDelta (s : State) (now : Num) : Num :=
  div (sub now s.last) (.fin 1000)

/-- The factor of line 74: `Math.min(1, dt * 8)`. -/
def factor (dt : Num) : Num :=
  mathMin (.fin 1) (mul dt (.fin 8))

/-- The right-hand side of line 74:
`speedCurrent += (speedTarget - speedCurrent) * Math.min(1, dt * 8)`. -/
def smooth (speedCurrent speedTarget dt : Num) : Num :=
  add speedCurrent (mul (sub speedTarget speedCurrent) (factor dt))

/-- The wrap step of line 76: `if (pos >= height) pos -= height;`. -/
def wrap (height pos : Num) : Num :=
  if le height pos then sub pos height else pos

/-- The body of `tick(now)` (lines 70-76) on the variables. -/
def tick (height : Num) (s : State) (now : Num) : State :=
  let dt := frameDelta s now
  let speedCurrent := smooth s.speedCurrent s.speedTarget dt
  let pos := add s.pos (mul speedCurrent dt)
  { speedTarget := s.speedTarget
    speedCurrent := speedCurrent
    pos := wrap height pos
    last := now }

/-- Line 86: `function setFast() { speedTarget = SPEED_FAST; }`. -/
def setFast (s : State) : State :=
  { s with speedTarget := SPEED_FAST }

/-- Line 87: `function setSlow() { speedTarget = SPEED_SLOW; }`. -/
def setSlow (s : State) : State :=
  { s with speedTarget := SPEED_SLOW }

/-- The value of `variable` at line 100 as a function of `t`; the literal
`0.7` is the binary64 value nearest to `7 / 10`. -/
def pointerVariable (t : Num) : Num :=
  add SPEED_SLOW
    (mul (sub SPEED_FAST SPEED_SLOW) (sub (.fin 1) (mathAbs (sub t (round64 (7 / 10))))))

/-- The value of `t` at line 98: `y / r.height` with
`y = Math.max(0, Math.min(r.height, e.clientY - r.top))`. -/
def pointerFraction (clientY : Num) (r : Rect) : Num :=
  let y := mathMax (.fin 0) (mathMin r.height (sub clientY r.top))
  div y r.height

/-- The `pointermove` listener of lines 95-102. -/
def pointermove (s : State) (clientY : Num) (r : Rect) : State :=
  let t := pointerFraction clientY r
  let variable0 := pointerVariable t
  { s with speedTarget := mathMax SPEED_SLOW (mathMin SPEED_FAST variable0) }

/-- What the page delivers to the animator: a frame callback with its
timestamp, or one of the listeners of lines 89-106. -/
inductive Event where
  | frame (now : Num)
  | fast
  | slow
  | move (clientY : Num) (r : Rect)
deriving DecidableEq

/-- One event applied to the variables. -/
def step (height : Num) (s : State) : Event → State
  | .frame now => tick height s now
  | .fast => setFast s
  | .slow => setSlow s
  | .move clientY r => pointermove s clientY r

/-- A whole trace, left to right. -/
def run (height : Num) (s : State) : List Event → State
  | [] => s
  | e :: es => run height (step height s e) es

/-! ### Predicates of the statements -/

/-- The spec's `clamp(x, lo, hi)` with the comparisons of the language:
`lo` below `lo`, `hi` above `hi`, and `x` itself otherwise. -/
def clampSpec (x lo hi : Num) : Num :=
  if lt x lo then lo else if lt hi x then hi else x

/-- Both speeds are finite and within the two speed constants, and
`speedCurrent` is a binary64 value. -/
def SpeedsInRange (s : State) : Prop :=
  ∃ c t : ℚ, s.speedCurrent = .fin c ∧ s.speedTarget = .fin t ∧ IsDouble c ∧
    18 ≤ c ∧ c ≤ 220 ∧ 18 ≤ t ∧ t ≤ 220

/-- A number that is neither `NaN` nor an infinity. -/
def IsFinite : Num → Prop
  | .fin _ => True
  | _ => False

/-- A finite number above zero. -/
def IsPositive : Num → Prop
  | .fin h => 0 < h
  | _ => False

/-- Every frame of the trace has a frame delta `dt >= 0`, and every
`pointermove` reads finite coordinates and a rectangle of positive height. -/
def NonNegDeltas (height : Num) : State → List Event → Prop
  | _, [] => True
  | s, e :: es =>
    (match e with
      | .frame now => le (.fin 0) (frameDelta s now) = true
      | .move clientY r => IsFinite clientY ∧ IsFinite r.top ∧ IsPositive r.height
      | _ => True) ∧ NonNegDeltas height (step height s e) es

end Binary64

/-! ## Lemmas on the single operations -/

theorem smooth_eq_of_factor (c t dt : ℚ) :
    smooth c t dt = (1 - min 1 (dt * 8)) * c + min 1 (dt * 8) * t := by
  unfold smooth; ring

theorem factor_nonneg {dt : ℚ} (h : 0 ≤ dt) : 0 ≤ min 1 (dt * 8) :=
  le_min zero_le_one (by linarith)

theorem factor_le_one (dt : ℚ) : min 1 (dt * 8) ≤ 1 := min_le_left _ _


theorem smooth_ge {c t dt lo : ℚ} (h : 0 ≤ dt) (hc : lo ≤ c) (ht : lo ≤ t) :
    lo ≤ smooth c t dt := by
  rw [smooth_eq_of_factor]
  have h0 := factor_nonneg h
  have h1 := factor_le_one dt
  nlinarith [mul_nonneg (sub_nonneg.2 h1) (sub_nonneg.2 hc), mul_nonneg h0 (sub_nonneg.2 ht)]

theorem smooth_le {c t dt hi : ℚ} (h : 0 ≤ dt) (hc : c ≤ hi) (ht : t ≤ hi) :
    smooth c t dt ≤ hi := by
  rw [smooth_eq_of_factor]
  have h0 := factor_nonneg h
  have h1 := factor_le_one dt
  nlinarith [mul_nonneg (sub_nonneg.2 h1) (sub_nonneg.2 hc), mul_nonneg h0 (sub_nonneg.2 ht)]

theorem clamp_bounds (v : ℚ) :
    SPEED_SLOW ≤ max SPEED_SLOW (min SPEED_FAST v) ∧
      max SPEED_SLOW (min SPEED_FAST v) ≤ SPEED_FAST := by
  refine ⟨le_max_left _ _, max_le ?_ (min_le_left _ _)⟩
  norm_num [SPEED_SLOW, SPEED_FAST]

theorem step_speedTarget_bounds (height : ℚ) (s : State) (e : Event)
    (hs : SPEED_SLOW ≤ s.speedTarget ∧ s.speedTarget ≤ SPEED_FAST) :
    SPEED_SLOW ≤ (step height s e).speedTarget ∧ (step height s e).speedTarget ≤ SPEED_FAST := by
  cases e with
  | frame now => exact hs
  | fast => norm_num [step, setFast, SPEED_SLOW, SPEED_FAST]
  | slow => norm_num [step, setSlow, SPEED_SLOW, SPEED_FAST]
  | move clientY r => exact clamp_bounds _

theorem step_speedsBounded (height : ℚ) (s : State) (e : Event) (hs : SpeedsBounded s)
    (he : match e with
      | .frame now => 0 ≤ frameDelta s now
      | _ => True) :
    SpeedsBounded (step height s e) := by
  obtain ⟨h1, h2, h3, h4⟩ := hs
  have ht := step_speedTarget_bounds height s e ⟨h1, h2⟩
  refine ⟨ht.1, ht.2, ?_⟩
  cases e with
  | frame now => exact ⟨smooth_ge he h3 h1, smooth_le he h4 h2⟩
  | fast => exact ⟨h3, h4⟩
  | slow => exact ⟨h3, h4⟩
  | move clientY r => exact ⟨h3, h4⟩

theorem init_speedsBounded (t0 : ℚ) : SpeedsBounded (init t0) := by
  norm_num [SpeedsBounded, init, SPEED_SLOW, SPEED_FAST]

theorem run_speedTarget_bounds (height : ℚ) (evs : List Event) :
    ∀ s : State, SPEED_SLOW ≤ s.speedTarget ∧ s.speedTarget ≤ SPEED_FAST →
      SPEED_SLOW ≤ (run height s evs).speedTarget ∧
        (run height s evs).speedTarget ≤ SPEED_FAST := by
  induction evs with
  | nil => intro s hs; exact hs
  | cons e es ih => intro s hs; exact ih _ (step_speedTarget_bounds height s e hs)


theorem wrap_range {height p : ℚ} (h0 : 0 ≤ p) (h1 : p < 2 * height) :
    0 ≤ wrap height p ∧ wrap height p < height := by
  unfold wrap
  split_ifs with h
  · constructor <;> linarith
  · exact ⟨h0, lt_of_not_ge h⟩

theorem run_pos_range (height : ℚ) (evs : List Event) :
    ∀ s : State, SpeedsBounded s → 0 ≤ s.pos → s.pos < height →
      ShortFrames height s evs →
      0 ≤ (run height s evs).pos ∧ (run height s evs).pos < height := by
  induction evs with
  | nil => intro s _ h0 h1 _; exact ⟨h0, h1⟩
  | cons e es ih =>
    intro s hs h0 h1 hd
    cases e with
    | frame now =>
      obtain ⟨⟨hdt, hadv⟩, hrest⟩ := hd
      have hb := step_speedsBounded height s (.frame now) hs hdt
      have hsm : 0 ≤ smooth s.speedCurrent s.speedTarget (frameDelta s now) := by
        have := smooth_ge hdt hs.2.2.1 hs.1
        norm_num [SPEED_SLOW] at this
        linarith
      have hw := @wrap_range height
        (s.pos + smooth s.speedCurrent s.speedTarget (frameDelta s now) * frameDelta s now)
        (by have := mul_nonneg hsm hdt; linarith) (by linarith)
      exact ih _ hb hw.1 hw.2 hrest
    | fast => exact ih _ (step_speedsBounded height s .fast hs trivial) h0 h1 hd.2
    | slow => exact ih _ (step_speedsBounded height s .slow hs trivial) h0 h1 hd.2
    | move clientY r =>
      exact ih _ (step_speedsBounded height s (.move clientY r) hs trivial) h0 h1 hd.2


theorem smooth_of_long_frame {dt : ℚ} (c t : ℚ) (h : 1 / 8 ≤ dt) : smooth c t dt = t := by
  have hk : min 1 (dt * 8) = 1 := min_eq_left (by linarith)
  rw [smooth_eq_of_factor, hk]; ring


theorem pointerVariable_range {t : ℚ} (h0 : 0 ≤ t) (h1 : t ≤ 1) :
    393 / 5 ≤ pointerVariable t ∧ pointerVariable t ≤ 220 := by
  have ha : |t - 7 / 10| ≤ 7 / 10 := abs_le.2 ⟨by linarith, by linarith⟩
  have hb : 0 ≤ |t - 7 / 10| := abs_nonneg _
  unfold pointerVariable SPEED_SLOW SPEED_FAST
  constructor <;> linarith


/-! ## C1: the position invariant -/

/-- C1, as stated, fails: with a content height of 1000 and one frame that
arrives 120 seconds after start-up, `pos` is advanced to 2160 and the single
subtraction of line 76 leaves 1160, which is not below the content height. -/
theorem pos_invariant_fails_after_long_frame :
    ¬ (0 ≤ (run 1000 (init 0) [Event.frame 120000]).pos ∧
        (run 1000 (init 0) [Event.frame 120000]).pos < 1000) := by
  norm_num [run, step, tick, frameDelta, smooth, wrap, init]

/-- C1, amended: for a positive content height, along every trace from the
initial state in which every frame has a non-negative delta and advances `pos`
by less than one content height (and every `pointermove` reads a rectangle of
positive height), the scroll offset satisfies `0 ≤ pos < height`. -/
theorem pos_invariant_of_short_frames (height t0 : ℚ) (evs : List Event)
    (hh : 0 < height) (hd : ShortFrames height (init t0) evs) :
    0 ≤ (run height (init t0) evs).pos ∧ (run height (init t0) evs).pos < height :=
  run_pos_range height evs (init t0) (init_speedsBounded t0) (le_refl _) hh hd

theorem pos_invariant_of_short_frames_witness :
    (0 : ℚ) < 1000 ∧
      ShortFrames 1000 (init 0)
        [Event.fast, Event.frame 4000, Event.move 70 ⟨0, 100⟩, Event.frame 6000, Event.slow] ∧
      (0 ≤ (run 1000 (init 0)
        [Event.fast, Event.frame 4000, Event.move 70 ⟨0, 100⟩, Event.frame 6000, Event.slow]).pos ∧
       (run 1000 (init 0)
        [Event.fast, Event.frame 4000, Event.move 70 ⟨0, 100⟩, Event.frame 6000, Event.slow]).pos
        < 1000) :=
  have hd : ShortFrames 1000 (init 0)
      [Event.fast, Event.frame 4000, Event.move 70 ⟨0, 100⟩, Event.frame 6000, Event.slow] := by
    norm_num [ShortFrames, step, tick, frameDelta, smooth, wrap, init, setFast, setSlow,
      pointermove, pointerFraction, pointerVariable, SPEED_SLOW, SPEED_FAST]
  ⟨by norm_num, hd, pos_invariant_of_short_frames 1000 0 _ (by norm_num) hd⟩

/-! ## C2: the bound on the target speed -/

/-- C2: from the initial state, after any sequence of events in which every
`pointermove` reads a rectangle of positive height (`setFast`, `setSlow`,
`pointermove` with any `clientY`, and frames in between),
`SPEED_SLOW ≤ speedTarget ≤ SPEED_FAST`, that is `18 ≤ speedTarget ≤ 220`. -/
theorem speedTarget_within_bounds (height t0 : ℚ) (evs : List Event)
    (_hr : PositiveRects evs) :
    (SPEED_SLOW ≤ (run height (init t0) evs).speedTarget ∧
      (run height (init t0) evs).speedTarget ≤ SPEED_FAST) ∧
    (18 ≤ (run height (init t0) evs).speedTarget ∧
      (run height (init t0) evs).speedTarget ≤ 220) := by
  have h := run_speedTarget_bounds height evs (init t0)
    ⟨(init_speedsBounded t0).1, (init_speedsBounded t0).2.1⟩
  refine ⟨h, ?_⟩
  simpa [SPEED_SLOW, SPEED_FAST] using h

theorem speedTarget_within_bounds_witness :
    PositiveRects [Event.fast, Event.move (-40) ⟨10, 300⟩, Event.frame 16, Event.move 900 ⟨10, 300⟩] ∧
    (18 ≤ (run 1000 (init 0)
        [Event.fast, Event.move (-40) ⟨10, 300⟩, Event.frame 16, Event.move 900 ⟨10, 300⟩]).speedTarget ∧
      (run 1000 (init 0)
        [Event.fast, Event.move (-40) ⟨10, 300⟩, Event.frame 16, Event.move 900 ⟨10, 300⟩]).speedTarget
        ≤ 220) :=
  have hr : PositiveRects
      [Event.fast, Event.move (-40) ⟨10, 300⟩, Event.frame 16, Event.move 900 ⟨10, 300⟩] := by
    norm_num [PositiveRects]
  ⟨hr, (speedTarget_within_bounds 1000 0 _ hr).2⟩

/-! ## C7: the wrap step applied twice -/

/-- C7, as stated, fails: with `height = 100` and `pos = 250` the first wrap
gives 150 and the second gives 50, so the second application is not a no-op. -/
theorem wrap_twice_differs : wrap 100 (wrap 100 250) ≠ wrap 100 250 := by
  norm_num [wrap]

/-- C7, amended: for every `height ≥ 0` and every `pos`, applying the wrap step
twice in succession gives the same `pos` as applying it once exactly when
`pos < 2 * height` or `height = 0`; in particular the second application is a
no-op whenever `pos` is less than two content heights. -/
theorem wrap_idempotent_iff (height pos : ℚ) (hh : 0 ≤ height) :
    (wrap height (wrap height pos) = wrap height pos ↔ (pos < 2 * height ∨ height = 0)) ∧
    (pos < 2 * height → wrap height (wrap height pos) = wrap height pos) := by
  have key : pos < 2 * height ∨ height = 0 → wrap height (wrap height pos) = wrap height pos := by
    intro h
    by_cases h1 : pos ≥ height
    · have e1 : wrap height pos = pos - height := if_pos h1
      rw [e1]
      rcases h with h | h
      · exact if_neg (by intro h2; have : height ≤ pos - height := h2; linarith)
      · unfold wrap; rw [h]; split_ifs <;> ring
    · have e1 : wrap height pos = pos := if_neg h1
      rw [e1, e1]
  refine ⟨⟨?_, key⟩, fun h => key (Or.inl h)⟩
  intro h
  by_contra hc
  push_neg at hc
  obtain ⟨hc1, hc2⟩ := hc
  have hpos : 0 < height := lt_of_le_of_ne hh (Ne.symm hc2)
  have e1 : wrap height pos = pos - height := if_pos (by show height ≤ pos; linarith)
  have e2 : wrap height (pos - height) = pos - height - height :=
    if_pos (by show height ≤ pos - height; linarith)
  rw [e1, e2] at h
  linarith

theorem wrap_idempotent_iff_witness :
    (0 : ℚ) ≤ 1000 ∧ (1020 : ℚ) < 2 * 1000 ∧
      wrap 1000 (wrap 1000 1020) = wrap 1000 1020 ∧ wrap 1000 1020 = 20 :=
  ⟨by norm_num, by norm_num, (wrap_idempotent_iff 1000 1020 (by norm_num)).2 (by norm_num),
    by norm_num [wrap]⟩

/-! ## C8: the worked update -/

/-- C8, as stated, fails: with `pos = 0`, `height = 1000`, `speedCurrent = 100`
and `speedTarget = 18`, one tick with `dt = 0.2` first sets `speedCurrent` to
18 and then yields `pos = 3.6`, not 20. -/
theorem worked_update_depends_on_target :
    frameDelta ⟨18, 100, 0, 0⟩ 200 = 1 / 5 ∧
    (tick 1000 ⟨18, 100, 0, 0⟩ 200).pos = 18 / 5 ∧
    (tick 1000 ⟨18, 100, 0, 0⟩ 200).pos ≠ 20 := by
  norm_num [tick, frameDelta, smooth, wrap]

/-- C8, amended: for a state with `pos = 0`, `height = 1000`,
`speedCurrent = 100` and `speedTarget = 100`, one tick with `dt = 0.2` seconds
yields `pos = 20` with no wrap; for any other `speedTarget` the tick first
sets `speedCurrent` to `speedTarget` and yields `pos = speedTarget * 0.2`
(wrapped once if that reaches 1000). -/
theorem worked_update (speedTarget last : ℚ) :
    frameDelta ⟨speedTarget, 100, 0, last⟩ (last + 200) = 1 / 5 ∧
    (tick 1000 ⟨100, 100, 0, last⟩ (last + 200)).pos = 20 ∧
    wrap 1000 (0 + 100 * (1 / 5)) = 0 + 100 * (1 / 5) ∧
    (tick 1000 ⟨speedTarget, 100, 0, last⟩ (last + 200)).speedCurrent = speedTarget ∧
    (tick 1000 ⟨speedTarget, 100, 0, last⟩ (last + 200)).pos
      = wrap 1000 (speedTarget * (1 / 5)) := by
  have hdt : frameDelta ⟨speedTarget, 100, 0, last⟩ (last + 200) = 1 / 5 := by
    simp only [frameDelta]; ring
  have hdt' : frameDelta ⟨100, 100, 0, last⟩ (last + 200) = 1 / 5 := by
    simp only [frameDelta]; ring
  refine ⟨hdt, ?_, by norm_num [wrap], ?_, ?_⟩
  · simp only [tick, hdt']
    norm_num [smooth, wrap]
  · simp only [tick, hdt]
    exact smooth_of_long_frame _ _ (by norm_num)
  · simp only [tick, hdt]
    rw [smooth_of_long_frame _ _ (by norm_num), zero_add]

/-! ## C9: zero content height -/

/-- C9, as stated, fails: with `height = 0`, the first frame one second after
start-up moves `pos` from 0 to 18, so `pos` does not stay at 0. -/
theorem zero_height_pos_moves :
    (init 0).pos = 0 ∧ (run 0 (init 0) [Event.frame 1000]).pos = 18 ∧
      (run 0 (init 0) [Event.frame 1000]).pos ≠ 0 := by
  norm_num [run, step, tick, frameDelta, smooth, wrap, init]

/-- C9, amended: when `height = 0`, the wrap step never changes `pos` (it
subtracts 0), and every tick sets `pos` to `pos + speedCurrent * dt` with the
smoothed `speedCurrent`: `pos` is not held at 0 but grows with every frame of
positive delta, and no step of the update is undefined. -/
theorem zero_height_tick (s : State) (now : ℚ) :
    (∀ p : ℚ, wrap 0 p = p) ∧
    (tick 0 s now).pos = s.pos + (tick 0 s now).speedCurrent * frameDelta s now ∧
    (0 < frameDelta s now → SPEED_SLOW ≤ s.speedCurrent → SPEED_SLOW ≤ s.speedTarget →
      s.pos < (tick 0 s now).pos) := by
  have hw : ∀ p : ℚ, wrap 0 p = p := by
    intro p
    unfold wrap
    split_ifs <;> simp
  refine ⟨hw, hw _, ?_⟩
  intro hpos hc ht
  have hsm : SPEED_SLOW ≤ smooth s.speedCurrent s.speedTarget (frameDelta s now) :=
    smooth_ge hpos.le hc ht
  have h18 : (0 : ℚ) < smooth s.speedCurrent s.speedTarget (frameDelta s now) :=
    lt_of_lt_of_le (by norm_num [SPEED_SLOW]) hsm
  show s.pos < wrap 0 _
  rw [hw]
  have := mul_pos h18 hpos
  linarith

/-! ## C10: the lower clamp of the pointer-move handler -/

/-- C10, as stated, fails: no vertical fraction `t` in `[0, 1]` makes the
unclamped value fall below `SPEED_SLOW`. -/
theorem no_fraction_below_slow :
    ¬ ∃ t : ℚ, 0 ≤ t ∧ t ≤ 1 ∧ pointerVariable t < SPEED_SLOW := by
  rintro ⟨t, h0, h1, hlt⟩
  have h := (pointerVariable_range h0 h1).1
  unfold SPEED_SLOW at hlt
  linarith

/-- C10, amended: for every vertical fraction `t` in `[0, 1]` the unclamped
value `SPEED_SLOW + (SPEED_FAST - SPEED_SLOW) * (1 - |t - 0.7|)` lies between
78.6 and 220, so the final clamp to `[SPEED_SLOW, SPEED_FAST]` returns it
unchanged. -/
theorem clamp_inactive_on_unit_interval (t : ℚ) (h0 : 0 ≤ t) (h1 : t ≤ 1) :
    393 / 5 ≤ pointerVariable t ∧ pointerVariable t ≤ 220 ∧
      max SPEED_SLOW (min SPEED_FAST (pointerVariable t)) = pointerVariable t := by
  obtain ⟨hlo, hhi⟩ := pointerVariable_range h0 h1
  refine ⟨hlo, hhi, ?_⟩
  rw [min_eq_right (by unfold SPEED_FAST; exact hhi),
    max_eq_right (by unfold SPEED_SLOW; linarith)]

theorem clamp_inactive_on_unit_interval_witness :
    (0 : ℚ) ≤ 0 ∧ (0 : ℚ) ≤ 1 ∧
      max SPEED_SLOW (min SPEED_FAST (pointerVariable 0)) = pointerVariable 0 ∧
      pointerVariable 0 = 393 / 5 :=
  ⟨le_refl _, by norm_num, (clamp_inactive_on_unit_interval 0 (le_refl _) (by norm_num)).2.2,
    by norm_num [pointerVariable, SPEED_SLOW, SPEED_FAST, abs_of_nonneg]⟩


/-! ## Lemmas on binary64 rounding -/

namespace Binary64

theorem log2Fuel_spec (fuel : ℕ) : ∀ n : ℕ, n ≤ fuel → 0 < n →
    2 ^ log2Fuel fuel n ≤ n ∧ n < 2 ^ (log2Fuel fuel n + 1) := by
  induction fuel with
  | zero => intro n h1 h2; omega
  | succ k ih =>
    intro n h1 h2
    unfold log2Fuel
    split_ifs with h
    · constructor
      · simpa using h2
      · simpa using h
    · have := ih (n / 2) (by omega) (by omega)
      obtain ⟨h3, h4⟩ := this
      rw [pow_succ, pow_succ]
      rw [pow_succ] at h4
      constructor <;> omega

theorem ilog2_spec {x : ℚ} (hx : 0 < x) :
    (2 : ℚ) ^ ilog2 x ≤ x ∧ x < (2 : ℚ) ^ (ilog2 x + 1) := by
  have hn : 0 < x.num := Rat.num_pos.2 hx
  have hd : 0 < x.den := x.den_pos
  have hna : 0 < x.num.natAbs := Int.natAbs_pos.2 hn.ne'
  obtain ⟨a1, a2⟩ := log2Fuel_spec _ _ (le_refl x.num.natAbs) hna
  obtain ⟨b1, b2⟩ := log2Fuel_spec _ _ (le_refl x.den) hd
  set a := log2Fuel x.num.natAbs x.num.natAbs with ha
  set b := log2Fuel x.den x.den with hb
  have hxe : x = (x.num.natAbs : ℚ) / (x.den : ℚ) := by
    have h2 : ((x.num.natAbs : ℕ) : ℚ) = (x.num : ℚ) := by
      rw [Nat.cast_natAbs, abs_of_pos hn]
    rw [h2]
    exact (Rat.num_div_den x).symm
  have a1q : (2 : ℚ) ^ a ≤ (x.num.natAbs : ℚ) := by exact_mod_cast a1
  have a2q : (x.num.natAbs : ℚ) < (2 : ℚ) ^ (a + 1) := by exact_mod_cast a2
  have b1q : (2 : ℚ) ^ b ≤ (x.den : ℚ) := by exact_mod_cast b1
  have b2q : (x.den : ℚ) < (2 : ℚ) ^ (b + 1) := by exact_mod_cast b2
  have hdq : (0 : ℚ) < (x.den : ℚ) := by exact_mod_cast hd
  have hpa : (0 : ℚ) < (2 : ℚ) ^ a := by positivity
  have hpb : (0 : ℚ) < (2 : ℚ) ^ b := by positivity
  have e0 : (2 : ℚ) ^ ((a : ℤ) - (b : ℤ)) = (2 : ℚ) ^ a / (2 : ℚ) ^ b := by
    rw [zpow_sub₀ (by norm_num), zpow_natCast, zpow_natCast]
  have lo : (2 : ℚ) ^ ((a : ℤ) - (b : ℤ) - 1) ≤ x := by
    rw [zpow_sub₀ (by norm_num), e0, zpow_one, hxe, div_div, div_le_div_iff₀ (by positivity) hdq]
    rw [pow_succ] at b2q
    nlinarith
  have hi : x < (2 : ℚ) ^ ((a : ℤ) - (b : ℤ) + 1) := by
    rw [zpow_add₀ (by norm_num), e0, zpow_one, hxe, div_mul_eq_mul_div,
      div_lt_div_iff₀ hdq (by positivity)]
    rw [pow_succ] at a2q
    nlinarith
  unfold ilog2
  simp only [← ha, ← hb, abs_of_pos hx]
  split_ifs with h
  · exact ⟨h, hi⟩
  · refine ⟨lo, ?_⟩
    rw [sub_add_cancel]
    exact lt_of_not_ge h

theorem ilog2_le {x : ℚ} {e : ℤ} (hx : 0 < x) (h : x < (2 : ℚ) ^ (e + 1)) : ilog2 x ≤ e := by
  have h1 := (ilog2_spec hx).1
  have h2 : (2 : ℚ) ^ ilog2 x < (2 : ℚ) ^ (e + 1) := lt_of_le_of_lt h1 h
  have := (zpow_lt_zpow_iff_right₀ (by norm_num : (1 : ℚ) < 2)).1 h2
  omega

theorem le_ilog2 {x : ℚ} {e : ℤ} (hx : 0 < x) (h : (2 : ℚ) ^ e ≤ x) : e ≤ ilog2 x := by
  have h1 := (ilog2_spec hx).2
  have h2 : (2 : ℚ) ^ e < (2 : ℚ) ^ (ilog2 x + 1) := lt_of_le_of_lt h h1
  have := (zpow_lt_zpow_iff_right₀ (by norm_num : (1 : ℚ) < 2)).1 h2
  omega

theorem ilog2_mono {x y : ℚ} (hx : 0 < x) (h : x ≤ y) : ilog2 x ≤ ilog2 y :=
  le_ilog2 (lt_of_lt_of_le hx h) (le_trans (ilog2_spec hx).1 h)

theorem roundEven_intCast (n : ℤ) : roundEven (n : ℚ) = n := by
  unfold roundEven
  simp

theorem floor_le_roundEven (y : ℚ) : ⌊y⌋ ≤ roundEven y := by
  unfold roundEven
  simp only
  split_ifs <;> omega

theorem roundEven_le_floor_add_one (y : ℚ) : roundEven y ≤ ⌊y⌋ + 1 := by
  unfold roundEven
  simp only
  split_ifs <;> omega

theorem abs_roundEven_sub_le (y : ℚ) : |(roundEven y : ℚ) - y| ≤ 1 / 2 := by
  have h0 : (⌊y⌋ : ℚ) ≤ y := Int.floor_le y
  have h1 : y < (⌊y⌋ : ℚ) + 1 := Int.lt_floor_add_one y
  rw [abs_le]
  unfold roundEven
  simp only
  split_ifs with a b c
  · constructor <;> linarith
  · push_cast; constructor <;> linarith
  · constructor <;> linarith
  · push_cast; constructor <;> linarith

theorem roundEven_mono {y z : ℚ} (h : y ≤ z) : roundEven y ≤ roundEven z := by
  have hf : ⌊y⌋ ≤ ⌊z⌋ := Int.floor_mono h
  rcases lt_or_eq_of_le hf with hlt | heq
  · have h1 := roundEven_le_floor_add_one y
    have h2 := floor_le_roundEven z
    omega
  · unfold roundEven
    simp only
    rw [← heq]
    split_ifs <;> first | omega | (exfalso; linarith)

theorem roundEven_le_of_le {y : ℚ} {n : ℤ} (h : y ≤ n) : roundEven y ≤ n := by
  have := roundEven_mono h
  rwa [roundEven_intCast] at this

theorem le_roundEven_of_le {y : ℚ} {n : ℤ} (h : (n : ℚ) ≤ y) : n ≤ roundEven y := by
  have := roundEven_mono h
  rwa [roundEven_intCast] at this

theorem quantumExp_le {x : ℚ} {e : ℤ} (hx : 0 < x) (he : -1022 ≤ e)
    (h : x < (2 : ℚ) ^ (e + 1)) : quantumExp x ≤ e - 52 := by
  have := ilog2_le hx h
  unfold quantumExp
  have : max (ilog2 x) (-1022) ≤ e := max_le this he
  omega

theorem quantumExp_mono {x y : ℚ} (hx : 0 < x) (h : x ≤ y) : quantumExp x ≤ quantumExp y := by
  have := ilog2_mono hx h
  unfold quantumExp
  have : max (ilog2 x) (-1022) ≤ max (ilog2 y) (-1022) := max_le_max this (le_refl _)
  omega

theorem lt_two_zpow_quantumExp {x : ℚ} (hx : 0 < x) :
    x < (2 : ℚ) ^ (quantumExp x + 53) := by
  have h1 := (ilog2_spec hx).2
  refine lt_of_lt_of_le h1 ?_
  apply zpow_le_zpow_right₀ (by norm_num)
  unfold quantumExp
  have := le_max_left (ilog2 x) (-1022)
  omega

theorem rndPos_le_of_le {x : ℚ} {n : ℤ} (h : x ≤ n * (2 : ℚ) ^ quantumExp x) :
    rndPos x ≤ n * (2 : ℚ) ^ quantumExp x := by
  have hp : (0 : ℚ) < (2 : ℚ) ^ quantumExp x := by positivity
  unfold rndPos
  have : roundEven (x / 2 ^ quantumExp x) ≤ n :=
    roundEven_le_of_le ((div_le_iff₀ hp).2 h)
  have : (roundEven (x / 2 ^ quantumExp x) : ℚ) ≤ n := by exact_mod_cast this
  exact mul_le_mul_of_nonneg_right this hp.le

theorem le_rndPos_of_le {x : ℚ} {n : ℤ} (h : n * (2 : ℚ) ^ quantumExp x ≤ x) :
    n * (2 : ℚ) ^ quantumExp x ≤ rndPos x := by
  have hp : (0 : ℚ) < (2 : ℚ) ^ quantumExp x := by positivity
  unfold rndPos
  have : n ≤ roundEven (x / 2 ^ quantumExp x) :=
    le_roundEven_of_le ((le_div_iff₀ hp).2 h)
  have : (n : ℚ) ≤ roundEven (x / 2 ^ quantumExp x) := by exact_mod_cast this
  exact mul_le_mul_of_nonneg_right this hp.le

theorem rndPos_nonneg {x : ℚ} (hx : 0 ≤ x) : 0 ≤ rndPos x := by
  have := le_rndPos_of_le (x := x) (n := 0) (by simpa using hx)
  simpa using this

theorem rndPos_mono {x y : ℚ} (hx : 0 < x) (h : x ≤ y) : rndPos x ≤ rndPos y := by
  have hy : 0 < y := lt_of_lt_of_le hx h
  have hq := quantumExp_mono hx h
  rcases lt_or_eq_of_le hq with hlt | heq
  · -- different quanta: a power of two lies between
    have hxu : rndPos x ≤ (2 : ℚ) ^ (quantumExp x + 53) := by
      have h1 : x ≤ ((2 ^ 53 : ℕ) : ℤ) * (2 : ℚ) ^ quantumExp x := by
        have := (lt_two_zpow_quantumExp hx).le
        rw [zpow_add₀ (by norm_num), mul_comm] at this
        convert this using 2
        norm_num
      have := rndPos_le_of_le h1
      rw [zpow_add₀ (by norm_num), mul_comm]
      convert this using 2
      norm_num
    have hyl : (2 : ℚ) ^ (quantumExp y + 52) ≤ rndPos y := by
      have hlog : quantumExp y + 52 = ilog2 y := by
        unfold quantumExp at hlt ⊢
        have := le_max_right (ilog2 x) (-1022)
        rcases max_choice (ilog2 y) (-1022) with hm | hm
        · rw [hm]; ring
        · rw [hm] at hlt; omega
      have h1 : ((2 ^ 52 : ℕ) : ℤ) * (2 : ℚ) ^ quantumExp y ≤ y := by
        have := (ilog2_spec hy).1
        rw [← hlog, zpow_add₀ (by norm_num), mul_comm] at this
        convert this using 2
        norm_num
      have := le_rndPos_of_le h1
      rw [zpow_add₀ (by norm_num), mul_comm]
      convert this using 2
      norm_num
    refine le_trans hxu (le_trans ?_ hyl)
    apply zpow_le_zpow_right₀ (by norm_num)
    omega
  · unfold rndPos
    rw [← heq]
    have hp : (0 : ℚ) < (2 : ℚ) ^ quantumExp x := by positivity
    have : roundEven (x / 2 ^ quantumExp x) ≤ roundEven (y / 2 ^ quantumExp x) :=
      roundEven_mono (div_le_div_of_nonneg_right h hp.le)
    have : (roundEven (x / 2 ^ quantumExp x) : ℚ) ≤ roundEven (y / 2 ^ quantumExp x) := by
      exact_mod_cast this
    exact mul_le_mul_of_nonneg_right this hp.le

theorem rnd_of_pos {x : ℚ} (h : 0 < x) : rnd x = rndPos x := by
  unfold rnd
  rw [if_neg h.ne', if_neg (not_lt.2 h.le)]

theorem rnd_of_neg {x : ℚ} (h : x < 0) : rnd x = -rndPos (-x) := by
  unfold rnd
  rw [if_neg h.ne, if_pos h]

theorem rnd_zero : rnd 0 = 0 := by
  unfold rnd
  rw [if_pos rfl]

theorem rnd_mono {x y : ℚ} (h : x ≤ y) : rnd x ≤ rnd y := by
  rcases lt_trichotomy x 0 with hx | hx | hx
  · rw [rnd_of_neg hx]
    have hnx := rndPos_nonneg (x := -x) (by linarith)
    rcases lt_trichotomy y 0 with hy | hy | hy
    · rw [rnd_of_neg hy]
      have := rndPos_mono (x := -y) (y := -x) (by linarith) (by linarith)
      linarith
    · rw [hy, rnd_zero]; linarith
    · rw [rnd_of_pos hy]
      have := rndPos_nonneg (x := y) hy.le
      linarith
  · rw [hx, rnd_zero]
    rcases lt_or_eq_of_le (hx ▸ h) with hy | hy
    · rw [rnd_of_pos hy]; exact rndPos_nonneg hy.le
    · rw [← hy, rnd_zero]
  · rw [rnd_of_pos hx, rnd_of_pos (lt_of_lt_of_le hx h)]
    exact rndPos_mono hx h

theorem rndPos_err (x : ℚ) : |rndPos x - x| ≤ (2 : ℚ) ^ quantumExp x / 2 := by
  have hp : (0 : ℚ) < (2 : ℚ) ^ quantumExp x := by positivity
  have h := abs_roundEven_sub_le (x / 2 ^ quantumExp x)
  have e : rndPos x - x = ((roundEven (x / 2 ^ quantumExp x) : ℚ) - x / 2 ^ quantumExp x) *
      2 ^ quantumExp x := by
    unfold rndPos
    field_simp
  rw [e, abs_mul, abs_of_pos hp]
  calc _ ≤ 1 / 2 * (2 : ℚ) ^ quantumExp x := mul_le_mul_of_nonneg_right h hp.le
    _ = _ := by ring

theorem rnd_err {x : ℚ} {e : ℤ} (he : -1022 ≤ e) (h : |x| < (2 : ℚ) ^ (e + 1)) :
    |rnd x - x| ≤ (2 : ℚ) ^ (e - 53) := by
  have key : ∀ z : ℚ, 0 < z → z < (2 : ℚ) ^ (e + 1) → |rndPos z - z| ≤ (2 : ℚ) ^ (e - 53) := by
    intro z hz hlt
    refine le_trans (rndPos_err z) ?_
    have hq := quantumExp_le hz he hlt
    have : (2 : ℚ) ^ quantumExp z ≤ (2 : ℚ) ^ (e - 52) := zpow_le_zpow_right₀ (by norm_num) hq
    have e2 : (2 : ℚ) ^ (e - 52) = 2 * (2 : ℚ) ^ (e - 53) := by
      rw [show e - 52 = (e - 53) + 1 by ring, zpow_add₀ (by norm_num), zpow_one, mul_comm]
    linarith
  rcases lt_trichotomy x 0 with hx | hx | hx
  · rw [rnd_of_neg hx]
    have := key (-x) (by linarith) (by rwa [abs_of_neg hx] at h)
    rw [show -rndPos (-x) - x = -(rndPos (-x) - -x) by ring, abs_neg]
    exact this
  · rw [hx, rnd_zero]; simp; positivity
  · rw [rnd_of_pos hx]
    exact key x hx (by rwa [abs_of_pos hx] at h)

theorem rndPos_eq_self {x : ℚ} {n p : ℤ} (hx : x = n * (2 : ℚ) ^ p)
    (hq : quantumExp x ≤ p) : rndPos x = x := by
  have hp : (0 : ℚ) < (2 : ℚ) ^ quantumExp x := by positivity
  obtain ⟨k, hk⟩ := Int.eq_ofNat_of_zero_le (sub_nonneg.2 hq)
  have e : x / 2 ^ quantumExp x = ((n * 2 ^ k : ℤ) : ℚ) := by
    rw [div_eq_iff hp.ne']
    have hpe : p = quantumExp x + k := by omega
    push_cast
    conv_lhs => rw [hx, hpe, zpow_add₀ (by norm_num : (2 : ℚ) ≠ 0), zpow_natCast]
    ring
  unfold rndPos
  rw [e, roundEven_intCast, ← e]
  field_simp


theorem rnd_neg (x : ℚ) : rnd (-x) = -rnd x := by
  rcases lt_trichotomy x 0 with hx | hx | hx
  · rw [rnd_of_neg hx, rnd_of_pos (by linarith : 0 < -x)]; ring
  · rw [hx]; simp [rnd_zero]
  · rw [rnd_of_pos hx, rnd_of_neg (by linarith : -x < 0)]; simp

theorem rnd_abs_le {x B : ℚ} (hB : IsDouble B) (h : |x| ≤ B) : |rnd x| ≤ B := by
  obtain ⟨h1, h2⟩ := abs_le.1 h
  have u := rnd_mono h2
  have l := rnd_mono h1
  rw [rnd_neg] at l
  unfold IsDouble at hB
  rw [hB] at u l
  exact abs_le.2 ⟨l, u⟩

theorem round64_of_abs_lt {x : ℚ} (h : |rnd x| < (2 : ℚ) ^ 1024) :
    round64 x = .fin (rnd x) := by
  obtain ⟨h1, h2⟩ := abs_lt.1 h
  unfold round64
  rw [if_neg (not_le.2 h2), if_neg (not_le.2 h1)]

theorem round64_of_abs_le {x B : ℚ} (hB : IsDouble B) (hlt : B < (2 : ℚ) ^ 1024)
    (h : |x| ≤ B) : round64 x = .fin (rnd x) :=
  round64_of_abs_lt (lt_of_le_of_lt (rnd_abs_le hB h) hlt)

theorem isDouble_one : IsDouble 1 := by unfold IsDouble; decide!
theorem isDouble_18 : IsDouble 18 := by unfold IsDouble; decide!
theorem isDouble_440 : IsDouble 440 := by unfold IsDouble; decide!
theorem isDouble_660 : IsDouble 660 := by unfold IsDouble; decide!

theorem factor_spec {d : ℚ} (hd : 0 ≤ d) :
    ∃ k : ℚ, factor (.fin d) = .fin k ∧ 0 ≤ k ∧ k ≤ 1 ∧
      |k - Min.min 1 (d * 8)| ≤ 1 / 2 ^ 54 ∧ (1 ≤ d * 8 → k = 1) := by
  have h0 : 0 ≤ rnd (d * 8) := by
    have := rnd_mono (show (0 : ℚ) ≤ d * 8 by linarith)
    rwa [rnd_zero] at this
  have h1 : rnd 1 = 1 := isDouble_one
  by_cases hbig : 1 ≤ d * 8
  · have hr : 1 ≤ rnd (d * 8) := by
      have := rnd_mono hbig
      rwa [h1] at this
    refine ⟨1, ?_, by norm_num, le_refl _, ?_, fun _ => rfl⟩
    · show mathMin (.fin 1) (round64 (d * 8)) = .fin 1
      unfold round64
      split_ifs with a b
      · rfl
      · exfalso; have : (0 : ℚ) < 2 ^ 1024 := by positivity
        linarith
      · show (if le (.fin 1) (.fin (rnd (d * 8))) then Num.fin 1 else .fin (rnd (d * 8))) = _
        have : le (.fin 1) (.fin (rnd (d * 8))) = true := by
          show decide ((1 : ℚ) ≤ rnd (d * 8)) = true
          exact decide_eq_true hr
        rw [this]; rfl
    · rw [min_eq_left hbig]; simp
  · push_neg at hbig
    have hr : rnd (d * 8) ≤ 1 := by
      have := rnd_mono hbig.le
      rwa [h1] at this
    have herr : |rnd (d * 8) - d * 8| ≤ 1 / 2 ^ 54 := by
      have := rnd_err (x := d * 8) (e := -1) (by norm_num)
        (by rw [abs_of_nonneg (by linarith)]; simpa using hbig)
      norm_num at this ⊢
      exact this
    refine ⟨rnd (d * 8), ?_, h0, hr, ?_, fun h => absurd h (not_le.2 hbig)⟩
    · show mathMin (.fin 1) (round64 (d * 8)) = .fin (rnd (d * 8))
      have hlt : |rnd (d * 8)| < (2 : ℚ) ^ 1024 := by
        rw [abs_of_nonneg h0]
        refine lt_of_le_of_lt hr ?_
        exact one_lt_pow₀ (by norm_num) (by norm_num)
      rw [round64_of_abs_lt hlt]
      show (if le (.fin 1) (.fin (rnd (d * 8))) then Num.fin 1 else .fin (rnd (d * 8))) = _
      by_cases h2 : (1 : ℚ) ≤ rnd (d * 8)
      · have e1 : rnd (d * 8) = 1 := le_antisymm hr h2
        have : le (.fin 1) (.fin (rnd (d * 8))) = true := decide_eq_true h2
        rw [this, e1]; rfl
      · have : le (.fin 1) (.fin (rnd (d * 8))) = false := decide_eq_false h2
        rw [this]; rfl
    · rw [min_eq_right hbig.le]; exact herr

/-- The value of line 74 on finite speeds: three roundings around the factor. -/
theorem smooth_fin {c t k : ℚ} (hc : |c| ≤ 220) (ht : |t| ≤ 220) (hk0 : 0 ≤ k) (hk1 : k ≤ 1) :
    add (.fin c) (mul (sub (.fin t) (.fin c)) (.fin k)) =
        .fin (rnd (c + rnd (rnd (t - c) * k))) ∧
      |rnd (t - c)| ≤ 440 ∧ |rnd (rnd (t - c) * k)| ≤ 440 := by
  have hb : (660 : ℚ) < 2 ^ 1024 := by
    calc (660 : ℚ) < 2 ^ 10 := by norm_num
      _ ≤ 2 ^ 1024 := pow_le_pow_right₀ (by norm_num) (by norm_num)
  have hb2 : (440 : ℚ) < 2 ^ 1024 := by linarith
  obtain ⟨c1, c2⟩ := abs_le.1 hc
  obtain ⟨t1, t2⟩ := abs_le.1 ht
  have h1 : |t - c| ≤ 440 := abs_le.2 ⟨by linarith, by linarith⟩
  have h1r := rnd_abs_le isDouble_440 h1
  have h2 : |rnd (t - c) * k| ≤ 440 := by
    rw [abs_mul, abs_of_nonneg hk0]
    have := abs_nonneg (rnd (t - c))
    nlinarith
  have h2r := rnd_abs_le isDouble_440 h2
  have h3 : |c + rnd (rnd (t - c) * k)| ≤ 660 := by
    obtain ⟨a, b⟩ := abs_le.1 h2r
    exact abs_le.2 ⟨by linarith, by linarith⟩
  refine ⟨?_, h1r, h2r⟩
  have e1 : sub (.fin t) (.fin c) = .fin (rnd (t - c)) := by
    show round64 (t + -c) = _
    rw [← sub_eq_add_neg]
    exact round64_of_abs_le isDouble_440 hb2 h1
  have e2 : mul (.fin (rnd (t - c))) (.fin k) = .fin (rnd (rnd (t - c) * k)) := by
    show round64 (rnd (t - c) * k) = _
    exact round64_of_abs_le isDouble_440 hb2 h2
  rw [e1, e2]
  show round64 (c + rnd (rnd (t - c) * k)) = _
  exact round64_of_abs_le isDouble_660 hb h3

theorem smooth_err {c t k kx : ℚ} (hc : |c| ≤ 220) (ht : |t| ≤ 220) (hk0 : 0 ≤ k)
    (hk1 : k ≤ 1) (hkx : |k - kx| ≤ 1 / 2 ^ 54) :
    |rnd (c + rnd (rnd (t - c) * k)) - (c + (t - c) * kx)| ≤ 1 / 2 ^ 42 := by
  obtain ⟨c1, c2⟩ := abs_le.1 hc
  obtain ⟨t1, t2⟩ := abs_le.1 ht
  have h1 : |t - c| ≤ 440 := abs_le.2 ⟨by linarith, by linarith⟩
  have h1r := rnd_abs_le isDouble_440 h1
  have h2 : |rnd (t - c) * k| ≤ 440 := by
    rw [abs_mul, abs_of_nonneg hk0]
    have := abs_nonneg (rnd (t - c))
    nlinarith
  have h2r := rnd_abs_le isDouble_440 h2
  have h3 : |c + rnd (rnd (t - c) * k)| ≤ 660 := by
    obtain ⟨a, b⟩ := abs_le.1 h2r
    exact abs_le.2 ⟨by linarith, by linarith⟩
  have e1 : |rnd (t - c) - (t - c)| ≤ 1 / 2 ^ 45 := by
    have := rnd_err (x := t - c) (e := 8) (by norm_num)
      (lt_of_le_of_lt h1 (by norm_num))
    norm_num at this ⊢
    exact this
  have e2 : |rnd (rnd (t - c) * k) - rnd (t - c) * k| ≤ 1 / 2 ^ 45 := by
    have := rnd_err (x := rnd (t - c) * k) (e := 8) (by norm_num)
      (lt_of_le_of_lt h2 (by norm_num))
    norm_num at this ⊢
    exact this
  have e3 : |rnd (c + rnd (rnd (t - c) * k)) - (c + rnd (rnd (t - c) * k))| ≤ 1 / 2 ^ 44 := by
    have := rnd_err (x := c + rnd (rnd (t - c) * k)) (e := 9) (by norm_num)
      (lt_of_le_of_lt h3 (by norm_num))
    norm_num at this ⊢
    exact this
  have e4 : |(rnd (t - c) - (t - c)) * k| ≤ 1 / 2 ^ 45 := by
    rw [abs_mul, abs_of_nonneg hk0]
    have := abs_nonneg (rnd (t - c) - (t - c))
    nlinarith
  have e5 : |(t - c) * (k - kx)| ≤ 440 * (1 / 2 ^ 54) := by
    rw [abs_mul]
    exact mul_le_mul h1 hkx (abs_nonneg _) (by norm_num)
  have split : rnd (c + rnd (rnd (t - c) * k)) - (c + (t - c) * kx) =
      (rnd (c + rnd (rnd (t - c) * k)) - (c + rnd (rnd (t - c) * k))) +
      (rnd (rnd (t - c) * k) - rnd (t - c) * k) +
      (rnd (t - c) - (t - c)) * k + (t - c) * (k - kx) := by ring
  rw [split]
  have a1 := abs_add_three
    (rnd (c + rnd (rnd (t - c) * k)) - (c + rnd (rnd (t - c) * k)))
    (rnd (rnd (t - c) * k) - rnd (t - c) * k)
    ((rnd (t - c) - (t - c)) * k)
  have a2 := abs_add
    (rnd (c + rnd (rnd (t - c) * k)) - (c + rnd (rnd (t - c) * k)) +
      (rnd (rnd (t - c) * k) - rnd (t - c) * k) + (rnd (t - c) - (t - c)) * k)
    ((t - c) * (k - kx))
  norm_num at e1 e2 e3 e4 e5 ⊢
  linarith

theorem isDouble_eq_rndPos {c : ℚ} (hd : IsDouble c) (hc : 0 < c) :
    c = roundEven (c / 2 ^ quantumExp c) * 2 ^ quantumExp c := by
  have h : rnd c = c := hd
  rw [rnd_of_pos hc] at h
  exact h.symm

/-- The difference `18 - c` of line 74 is exact for a double `c` between 18 and 220. -/
theorem rnd_eighteen_sub {c : ℚ} (hd : IsDouble c) (h1 : 18 ≤ c) (h2 : c ≤ 220) :
    rnd (18 - c) = 18 - c := by
  rcases eq_or_lt_of_le h1 with heq | hlt
  · rw [← heq]; simp [rnd_zero]
  · have hc : 0 < c := by linarith
    have hx : 0 < c - 18 := by linarith
    have hq : quantumExp c ≤ -45 := by
      have := quantumExp_le (e := 7) hc (by norm_num) (lt_of_le_of_lt h2 (by norm_num))
      omega
    obtain ⟨k, hk⟩ := Int.eq_ofNat_of_zero_le (show (0 : ℤ) ≤ -quantumExp c by omega)
    have hrep := isDouble_eq_rndPos hd hc
    have h18 : (18 : ℚ) = ((18 * 2 ^ k : ℤ) : ℚ) * 2 ^ quantumExp c := by
      have hq' : quantumExp c = -(k : ℤ) := by omega
      rw [hq', zpow_neg, zpow_natCast]
      push_cast
      field_simp
    have hxrep : c - 18 = ((roundEven (c / 2 ^ quantumExp c) - 18 * 2 ^ k : ℤ) : ℚ) *
        2 ^ quantumExp c := by
      rw [Int.cast_sub, sub_mul, ← hrep, ← h18]
    have hqx : quantumExp (c - 18) ≤ quantumExp c := quantumExp_mono hx (by linarith)
    have := rndPos_eq_self hxrep hqx
    rw [rnd_of_neg (by linarith : 18 - c < 0), neg_sub, this]
    ring

theorem tick_speedCurrent (height : Num) (s : State) (now : Num) :
    (tick height s now).speedCurrent =
      add s.speedCurrent (mul (sub s.speedTarget s.speedCurrent) (factor (frameDelta s now))) :=
  rfl

theorem mathMax_mathMin_eq_clampSpec (lo hi x : Num) (h : le lo hi = true) :
    mathMax lo (mathMin hi x) = clampSpec x lo hi := by
  cases lo <;> cases hi <;> cases x <;>
    simp [mathMax, mathMin, clampSpec, le, lt] at h ⊢ <;>
    (try split_ifs) <;> (try simp_all) <;> (try linarith)

theorem quantumExp_ge (x : ℚ) : -1074 ≤ quantumExp x := by
  unfold quantumExp
  have := le_max_right (ilog2 x) (-1022)
  omega

theorem rndPos_idem {x : ℚ} (hx : 0 < x) : rnd (rndPos x) = rndPos x := by
  have hp : (0 : ℚ) < (2 : ℚ) ^ quantumExp x := by positivity
  have hq := quantumExp_ge x
  have hN0 : 0 ≤ roundEven (x / 2 ^ quantumExp x) := by
    have := le_roundEven_of_le (y := x / 2 ^ quantumExp x) (n := 0)
      (by simpa using (div_pos hx hp).le)
    exact this
  have hN1 : roundEven (x / 2 ^ quantumExp x) ≤ 2 ^ 53 := by
    have h1 : x / 2 ^ quantumExp x ≤ ((2 ^ 53 : ℤ) : ℚ) := by
      rw [div_le_iff₀ hp]
      have := (lt_two_zpow_quantumExp hx).le
      rw [zpow_add₀ (by norm_num), mul_comm] at this
      convert this using 2
      norm_num
    exact roundEven_le_of_le h1
  rcases eq_or_lt_of_le hN0 with h0 | hpos
  · have : rndPos x = 0 := by unfold rndPos; rw [← h0]; simp
    rw [this, rnd_zero]
  · have hy : 0 < rndPos x := by
      unfold rndPos
      exact mul_pos (by exact_mod_cast hpos) hp
    rw [rnd_of_pos hy]
    rcases eq_or_lt_of_le hN1 with htop | hlt
    · -- the rounding reached the next power of two
      have hval : rndPos x = ((1 : ℤ) : ℚ) * (2 : ℚ) ^ (quantumExp x + 53) := by
        unfold rndPos
        rw [htop, zpow_add₀ (by norm_num), mul_comm]
        norm_num
      refine rndPos_eq_self hval ?_
      have h1 : rndPos x < (2 : ℚ) ^ (quantumExp x + 53 + 1) := by
        rw [hval]
        simp only [Int.cast_one, one_mul]
        exact zpow_lt_zpow_right₀ (by norm_num) (by omega)
      have := quantumExp_le (e := quantumExp x + 53) hy (by omega) h1
      omega
    · have hval : rndPos x = ((roundEven (x / 2 ^ quantumExp x) : ℤ) : ℚ) *
          (2 : ℚ) ^ quantumExp x := rfl
      refine rndPos_eq_self hval ?_
      have h1 : rndPos x < (2 : ℚ) ^ (quantumExp x + 52 + 1) := by
        rw [hval, show quantumExp x + 52 + 1 = 53 + quantumExp x by ring,
          zpow_add₀ (by norm_num)]
        apply mul_lt_mul_of_pos_right _ hp
        have : ((roundEven (x / 2 ^ quantumExp x) : ℤ) : ℚ) < ((2 ^ 53 : ℤ) : ℚ) := by
          exact_mod_cast hlt
        convert this using 1
        norm_num
      have := quantumExp_le (e := quantumExp x + 52) hy (by omega) h1
      omega

theorem rnd_idem (x : ℚ) : IsDouble (rnd x) := by
  unfold IsDouble
  rcases lt_trichotomy x 0 with hx | hx | hx
  · rw [rnd_of_neg hx, rnd_neg, rndPos_idem (by linarith : 0 < -x)]
  · rw [hx, rnd_zero, rnd_zero]
  · rw [rnd_of_pos hx, rndPos_idem hx]

theorem isDouble_two : IsDouble 2 := by unfold IsDouble; decide!
theorem isDouble_four : IsDouble 4 := by unfold IsDouble; decide!
theorem isDouble_1024 : IsDouble 1024 := by unfold IsDouble; decide!
theorem isDouble_2048 : IsDouble 2048 := by unfold IsDouble; decide!

theorem lt_two_pow_1024 {B : ℚ} (h : B ≤ 2048) : B < (2 : ℚ) ^ 1024 :=
  lt_of_le_of_lt h (by
    calc (2048 : ℚ) < 2 ^ 12 := by norm_num
      _ ≤ 2 ^ 1024 := pow_le_pow_right₀ (by norm_num) (by norm_num))

theorem factor_of_nonneg {dt : Num} (h : le (.fin 0) dt = true) :
    ∃ k : ℚ, factor dt = .fin k ∧ 0 ≤ k ∧ k ≤ 1 := by
  cases dt with
  | nan => simp [le] at h
  | ninf => simp [le] at h
  | pinf => exact ⟨1, by decide!, by norm_num, le_refl _⟩
  | fin d =>
    have hd : 0 ≤ d := by simpa [le] using h
    obtain ⟨k, hk, hk0, hk1, -, -⟩ := factor_spec hd
    exact ⟨k, hk, hk0, hk1⟩

theorem smooth_range {c t k : ℚ} (hcd : IsDouble c) (hc1 : 18 ≤ c) (hc2 : c ≤ 220)
    (ht1 : 18 ≤ t) (ht2 : t ≤ 220) (hk0 : 0 ≤ k) (hk1 : k ≤ 1) :
    18 ≤ rnd (c + rnd (rnd (t - c) * k)) ∧ rnd (c + rnd (rnd (t - c) * k)) ≤ 220 := by
  have hcdr : rnd c = c := hcd
  have h18r : rnd 18 = 18 := isDouble_18
  have hex := rnd_eighteen_sub hcd hc1 hc2
  rcases le_total c t with hle | hle
  · have h1 : 0 ≤ rnd (t - c) := by
      have := rnd_mono (show (0 : ℚ) ≤ t - c by linarith)
      rwa [rnd_zero] at this
    have h2 : 0 ≤ rnd (rnd (t - c) * k) := by
      have := rnd_mono (show (0 : ℚ) ≤ rnd (t - c) * k from mul_nonneg h1 hk0)
      rwa [rnd_zero] at this
    have h3 : rnd (rnd (t - c) * k) ≤ rnd (t - c) := by
      have := rnd_mono (show rnd (t - c) * k ≤ rnd (t - c) by nlinarith)
      rwa [show rnd (rnd (t - c)) = rnd (t - c) from rnd_idem _] at this
    have h4 : |rnd (t - c) - (t - c)| ≤ 1 / 2 ^ 46 := by
      have := rnd_err (x := t - c) (e := 7) (by norm_num)
        (by rw [abs_of_nonneg (by linarith)]; norm_num; linarith)
      norm_num at this ⊢
      exact this
    obtain ⟨-, h5⟩ := abs_le.1 h4
    constructor
    · have := rnd_mono (show c ≤ c + rnd (rnd (t - c) * k) by linarith)
      rw [hcdr] at this
      linarith
    · have := rnd_mono (show c + rnd (rnd (t - c) * k) ≤ 220 + 1 / 2 ^ 46 by linarith)
      have e : rnd (220 + 1 / 2 ^ 46) = 220 := by decide!
      rwa [e] at this
  · have h1 : rnd (t - c) ≤ 0 := by
      have := rnd_mono (show t - c ≤ (0 : ℚ) by linarith)
      rwa [rnd_zero] at this
    have h2 : rnd (rnd (t - c) * k) ≤ 0 := by
      have := rnd_mono (show rnd (t - c) * k ≤ (0 : ℚ) from
        mul_nonpos_of_nonpos_of_nonneg h1 hk0)
      rwa [rnd_zero] at this
    have h3 : 18 - c ≤ rnd (t - c) := by
      have := rnd_mono (show 18 - c ≤ t - c by linarith)
      rwa [hex] at this
    have h4 : 18 - c ≤ rnd (rnd (t - c) * k) := by
      have := rnd_mono (show 18 - c ≤ rnd (t - c) * k by nlinarith)
      rwa [hex] at this
    constructor
    · have := rnd_mono (show (18 : ℚ) ≤ c + rnd (rnd (t - c) * k) by linarith)
      rwa [h18r] at this
    · have := rnd_mono (show c + rnd (rnd (t - c) * k) ≤ c by linarith)
      rw [hcdr] at this
      linarith

theorem tick_speedsInRange (height : Num) (s : State) (now : Num) (hs : SpeedsInRange s)
    (hd : le (.fin 0) (frameDelta s now) = true) : SpeedsInRange (tick height s now) := by
  obtain ⟨c, t, hc, ht, hcd, hc1, hc2, ht1, ht2⟩ := hs
  obtain ⟨k, hk, hk0, hk1⟩ := factor_of_nonneg hd
  have hcr : |c| ≤ 220 := abs_le.2 ⟨by linarith, hc2⟩
  have htr : |t| ≤ 220 := abs_le.2 ⟨by linarith, ht2⟩
  obtain ⟨hsm, -, -⟩ := smooth_fin (c := c) (t := t) hcr htr hk0 hk1
  obtain ⟨r1, r2⟩ := smooth_range hcd hc1 hc2 ht1 ht2 hk0 hk1
  refine ⟨rnd (c + rnd (rnd (t - c) * k)), t, ?_, ht, rnd_idem _, r1, r2, ht1, ht2⟩
  rw [tick_speedCurrent, hc, ht, hk]; exact hsm

theorem clamp_fin (x : Num) (hx : x ≠ .nan) :
    ∃ t : ℚ, mathMax SPEED_SLOW (mathMin SPEED_FAST x) = .fin t ∧ 18 ≤ t ∧ t ≤ 220 := by
  cases x with
  | nan => exact absurd rfl hx
  | ninf => exact ⟨18, by decide, le_refl _, by norm_num⟩
  | pinf => exact ⟨220, by decide, by norm_num, le_refl _⟩
  | fin q =>
    by_cases h1 : (220 : ℚ) ≤ q
    · refine ⟨220, ?_, by norm_num, le_refl _⟩
      norm_num [mathMax, mathMin, le, SPEED_SLOW, SPEED_FAST, h1]
    · by_cases h2 : (18 : ℚ) ≤ q
      · refine ⟨q, ?_, h2, (not_le.1 h1).le⟩
        simp [mathMax, mathMin, le, SPEED_SLOW, SPEED_FAST, h1, h2]
      · refine ⟨18, ?_, le_refl _, by norm_num⟩
        simp [mathMax, mathMin, le, SPEED_SLOW, SPEED_FAST, h1, h2]

theorem pointerVariable_fin {τ : ℚ} (h : |τ| ≤ 1) :
    ∃ v : ℚ, pointerVariable (.fin τ) = .fin v := by
  have e07 : round64 (7 / 10) = .fin (3152519739159347 / 2 ^ 52) := by decide!
  have e202 : sub SPEED_FAST SPEED_SLOW = .fin 202 := by decide!
  obtain ⟨l, u⟩ := abs_le.1 h
  have h1 : |τ + -(3152519739159347 / 2 ^ 52 : ℚ)| ≤ 2 :=
    abs_le.2 ⟨by norm_num; linarith, by norm_num; linarith⟩
  have r1 := rnd_abs_le isDouble_two h1
  have h2 : abs (1 + -abs (rnd (τ + -(3152519739159347 / 2 ^ 52 : ℚ)))) ≤ 4 := by
    have := abs_nonneg (rnd (τ + -(3152519739159347 / 2 ^ 52 : ℚ)))
    exact abs_le.2 ⟨by linarith, by linarith⟩
  have r2 := rnd_abs_le isDouble_four h2
  have h3 : abs (202 * rnd (1 + -abs (rnd (τ + -(3152519739159347 / 2 ^ 52 : ℚ))))) ≤ 1024 := by
    rw [abs_mul]
    norm_num
    linarith
  have r3 := rnd_abs_le isDouble_1024 h3
  have h4 : abs (18 + rnd (202 * rnd (1 + -abs (rnd (τ + -(3152519739159347 / 2 ^ 52 : ℚ))))))
      ≤ 2048 := by
    obtain ⟨a, b⟩ := abs_le.1 r3
    exact abs_le.2 ⟨by linarith, by linarith⟩
  refine ⟨rnd (18 + rnd (202 * rnd (1 + -abs (rnd (τ + -(3152519739159347 / 2 ^ 52 : ℚ)))))), ?_⟩
  unfold pointerVariable
  rw [e07, e202]
  have s1 : sub (.fin τ) (.fin (3152519739159347 / 2 ^ 52)) =
      .fin (rnd (τ + -(3152519739159347 / 2 ^ 52 : ℚ))) :=
    round64_of_abs_le isDouble_two (lt_two_pow_1024 (by norm_num)) h1
  rw [s1]
  have s2 : sub (.fin 1) (mathAbs (.fin (rnd (τ + -(3152519739159347 / 2 ^ 52 : ℚ))))) =
      .fin (rnd (1 + -abs (rnd (τ + -(3152519739159347 / 2 ^ 52 : ℚ))))) :=
    round64_of_abs_le isDouble_four (lt_two_pow_1024 (by norm_num)) h2
  rw [s2]
  have s3 : mul (.fin 202) (.fin (rnd (1 + -abs (rnd (τ + -(3152519739159347 / 2 ^ 52 : ℚ)))))) =
      .fin (rnd (202 * rnd (1 + -abs (rnd (τ + -(3152519739159347 / 2 ^ 52 : ℚ)))))) :=
    round64_of_abs_le isDouble_1024 (lt_two_pow_1024 (by norm_num)) h3
  rw [s3]
  exact round64_of_abs_le isDouble_2048 (lt_two_pow_1024 (by norm_num)) h4

theorem pointerFraction_fin (cy top h : ℚ) (hh : 0 < h) :
    ∃ τ : ℚ, pointerFraction (.fin cy) ⟨.fin top, .fin h⟩ = .fin τ ∧ |τ| ≤ 1 := by
  have key : ∀ y : ℚ, 0 ≤ y → y ≤ h →
      ∃ τ : ℚ, div (.fin y) (.fin h) = .fin τ ∧ |τ| ≤ 1 := by
    intro y hy0 hy1
    have hq : |y / h| ≤ 1 := by
      rw [abs_of_nonneg (div_nonneg hy0 hh.le)]
      exact (div_le_one hh).2 hy1
    refine ⟨rnd (y / h), ?_, rnd_abs_le isDouble_one hq⟩
    show (if h = 0 then infOfSign (sign (.fin y)) else round64 (y / h)) = _
    rw [if_neg hh.ne']
    exact round64_of_abs_le isDouble_one (lt_two_pow_1024 (by norm_num)) hq
  unfold pointerFraction
  show ∃ τ : ℚ, div (mathMax (.fin 0) (mathMin (.fin h) (round64 (cy + -top)))) (.fin h)
    = .fin τ ∧ |τ| ≤ 1
  unfold round64
  split_ifs with a b
  · have e : mathMax (.fin 0) (mathMin (.fin h) .pinf) = .fin h := by
      simp [mathMax, mathMin, le, hh.le]
    rw [e]; exact key h hh.le (le_refl _)
  · have e : mathMax (.fin 0) (mathMin (.fin h) .ninf) = .fin 0 := by
      simp [mathMax, mathMin, le]
    rw [e]; exact key 0 (le_refl _) hh.le
  · by_cases h1 : h ≤ rnd (cy + -top)
    · have e : mathMax (.fin 0) (mathMin (.fin h) (.fin (rnd (cy + -top)))) = .fin h := by
        simp [mathMax, mathMin, le, h1, hh.le]
      rw [e]; exact key h hh.le (le_refl _)
    · by_cases h2 : 0 ≤ rnd (cy + -top)
      · have e : mathMax (.fin 0) (mathMin (.fin h) (.fin (rnd (cy + -top)))) =
            .fin (rnd (cy + -top)) := by
          simp [mathMax, mathMin, le, h1, h2]
        rw [e]; exact key _ h2 (not_le.1 h1).le
      · have e : mathMax (.fin 0) (mathMin (.fin h) (.fin (rnd (cy + -top)))) = .fin 0 := by
          simp [mathMax, mathMin, le, h1, h2]
        rw [e]; exact key 0 (le_refl _) hh.le

theorem pointermove_speedsInRange (s : State) (cy top h : ℚ) (hs : SpeedsInRange s)
    (hh : 0 < h) : SpeedsInRange (pointermove s (.fin cy) ⟨.fin top, .fin h⟩) := by
  obtain ⟨c, t, hc, -, hcd, hc1, hc2, -, -⟩ := hs
  obtain ⟨τ, hτ, hτ1⟩ := pointerFraction_fin cy top h hh
  obtain ⟨v, hv⟩ := pointerVariable_fin hτ1
  obtain ⟨t', ht', b1, b2⟩ := clamp_fin (.fin v) (by simp)
  refine ⟨c, t', hc, ?_, hcd, hc1, hc2, b1, b2⟩
  show mathMax SPEED_SLOW (mathMin SPEED_FAST (pointerVariable (pointerFraction _ _))) = _
  rw [hτ, hv, ht']

theorem init_speedsInRange (t0 : Num) : SpeedsInRange (init t0) :=
  ⟨18, 18, rfl, rfl, isDouble_18, le_refl _, by norm_num, le_refl _, by norm_num⟩

theorem run_speedsInRange (height : Num) (evs : List Event) :
    ∀ s : State, SpeedsInRange s → NonNegDeltas height s evs →
      SpeedsInRange (run height s evs) := by
  induction evs with
  | nil => intro s hs _; exact hs
  | cons e es ih =>
    intro s hs hd
    obtain ⟨he, hrest⟩ := hd
    refine ih _ ?_ hrest
    cases e with
    | frame now => exact tick_speedsInRange height s now hs he
    | fast =>
      obtain ⟨c, t, hc, -, hcd, hc1, hc2, -, -⟩ := hs
      exact ⟨c, 220, hc, rfl, hcd, hc1, hc2, by norm_num, le_refl _⟩
    | slow =>
      obtain ⟨c, t, hc, -, hcd, hc1, hc2, -, -⟩ := hs
      exact ⟨c, 18, hc, rfl, hcd, hc1, hc2, le_refl _, by norm_num⟩
    | move clientY r =>
      obtain ⟨top, h⟩ := r
      obtain ⟨f1, f2, f3⟩ := he
      cases clientY with
      | fin cy =>
        cases top with
        | fin tp =>
          cases h with
          | fin hq => exact pointermove_speedsInRange s cy tp hq hs f3
          | nan => exact f3.elim
          | ninf => exact f3.elim
          | pinf => exact f3.elim
        | nan => exact f2.elim
        | ninf => exact f2.elim
        | pinf => exact f2.elim
      | nan => exact f1.elim
      | ninf => exact f1.elim
      | pinf => exact f1.elim

/-! ## C3: the smoothing step on binary64 numbers -/

/-- C3, as stated, fails on the code.  On the first frame after start-up
`speedCurrent` equals `speedTarget` and stays there, so the distance is not
strictly smaller.  And after `setFast`, a 200 ms frame and a `pointermove` at
4 px of a 100 px monitor, `speedCurrent` is 220 above a target of
86.68000000000002; the next 200 ms frame sets it to 86.68, one rounding unit
past the target, so it does not lie between the old value and the target. -/
theorem smoothing_not_strict_and_overshoots :
    (tick (.fin 1000) (init (.fin 0)) (.fin 16)).speedCurrent = (init (.fin 0)).speedTarget ∧
    (init (.fin 0)).speedCurrent = (init (.fin 0)).speedTarget ∧
    (run (.fin 1000) (init (.fin 0))
      [.fast, .frame (.fin 200), .move (.fin 4) ⟨.fin 0, .fin 100⟩]).speedCurrent = .fin 220 ∧
    (run (.fin 1000) (init (.fin 0))
      [.fast, .frame (.fin 200), .move (.fin 4) ⟨.fin 0, .fin 100⟩]).speedTarget
      = .fin (6099562745319917 / 2 ^ 46) ∧
    (tick (.fin 1000) (run (.fin 1000) (init (.fin 0))
      [.fast, .frame (.fin 200), .move (.fin 4) ⟨.fin 0, .fin 100⟩]) (.fin 400)).speedCurrent
      = .fin (6099562745319916 / 2 ^ 46) ∧
    (6099562745319916 / 2 ^ 46 : ℚ) < 6099562745319917 / 2 ^ 46 := by
  decide!

/-- C3, amended: for every finite `dt ≥ 0` and all speeds of magnitude at most
220 (`speedCurrent` a binary64 value), one update step leaves a finite
`speedCurrent` that is within `2^-42` of the exact value
`speedCurrent + (speedTarget - speedCurrent) * min(1, dt * 8)`; it has not
moved away from `speedTarget` (not below the old value when the target is
above it, not above when the target is below); its distance to `speedTarget`
is at most `1 - min(1, dt * 8)` times the old distance plus `2^-42`; and it
lies between the old `speedCurrent` and `speedTarget` up to `2^-42`. -/
theorem smoothing_within_rounding (height : Num) (s : State) (now : Num) (c t d : ℚ)
    (hc : s.speedCurrent = .fin c) (ht : s.speedTarget = .fin t)
    (hcd : IsDouble c) (hcr : |c| ≤ 220) (htr : |t| ≤ 220)
    (hd : frameDelta s now = .fin d) (hd0 : 0 ≤ d) :
    ∃ c' : ℚ, (tick height s now).speedCurrent = .fin c' ∧
      |c' - (c + (t - c) * Min.min 1 (d * 8))| ≤ 1 / 2 ^ 42 ∧
      (c ≤ t → c ≤ c') ∧ (t ≤ c → c' ≤ c) ∧
      |c' - t| ≤ (1 - Min.min 1 (d * 8)) * |c - t| + 1 / 2 ^ 42 ∧
      Min.min c t - 1 / 2 ^ 42 ≤ c' ∧ c' ≤ Max.max c t + 1 / 2 ^ 42 := by
  obtain ⟨k, hk, hk0, hk1, hkx, -⟩ := factor_spec hd0
  obtain ⟨hsm, -, -⟩ := @smooth_fin c t k hcr htr hk0 hk1
  have herr := smooth_err hcr htr hk0 hk1 hkx
  have hx1 : Min.min 1 (d * 8) ≤ (1 : ℚ) := min_le_left _ _
  have hx0 : (0 : ℚ) ≤ Min.min 1 (d * 8) := le_min zero_le_one (by linarith)
  have hcdr : rnd c = c := hcd
  refine ⟨rnd (c + rnd (rnd (t - c) * k)), ?_, herr, ?_, ?_, ?_, ?_, ?_⟩
  · rw [tick_speedCurrent, hc, ht, hd, hk]; exact hsm
  · intro hle
    have h1 : 0 ≤ rnd (t - c) := by
      have := rnd_mono (show (0 : ℚ) ≤ t - c by linarith)
      rwa [rnd_zero] at this
    have h2 : 0 ≤ rnd (rnd (t - c) * k) := by
      have := rnd_mono (show (0 : ℚ) ≤ rnd (t - c) * k from mul_nonneg h1 hk0)
      rwa [rnd_zero] at this
    have := rnd_mono (show c ≤ c + rnd (rnd (t - c) * k) by linarith)
    rwa [hcdr] at this
  · intro hle
    have h1 : rnd (t - c) ≤ 0 := by
      have := rnd_mono (show t - c ≤ (0 : ℚ) by linarith)
      rwa [rnd_zero] at this
    have h2 : rnd (rnd (t - c) * k) ≤ 0 := by
      have := rnd_mono (show rnd (t - c) * k ≤ (0 : ℚ) from
        mul_nonpos_of_nonpos_of_nonneg h1 hk0)
      rwa [rnd_zero] at this
    have := rnd_mono (show c + rnd (rnd (t - c) * k) ≤ c by linarith)
    rwa [hcdr] at this
  · have e : rnd (c + rnd (rnd (t - c) * k)) - t =
        (rnd (c + rnd (rnd (t - c) * k)) - (c + (t - c) * Min.min 1 (d * 8))) +
          (1 - Min.min 1 (d * 8)) * (c - t) := by ring
    rw [e]
    refine le_trans (abs_add _ _) ?_
    rw [abs_mul, abs_of_nonneg (sub_nonneg.2 hx1)]
    linarith
  · obtain ⟨l, -⟩ := abs_le.1 herr
    have : Min.min c t ≤ c + (t - c) * Min.min 1 (d * 8) := by
      rcases le_total c t with h | h
      · rw [min_eq_left h]; nlinarith
      · rw [min_eq_right h]; nlinarith
    linarith
  · obtain ⟨-, u⟩ := abs_le.1 herr
    have : c + (t - c) * Min.min 1 (d * 8) ≤ Max.max c t := by
      rcases le_total c t with h | h
      · rw [max_eq_right h]; nlinarith
      · rw [max_eq_left h]; nlinarith
    linarith

theorem smoothing_within_rounding_witness :
    IsDouble 18 ∧
    frameDelta ⟨.fin 220, .fin 18, .fin 0, .fin 0⟩ (.fin 16)
      = .fin (1152921504606847 / 2 ^ 56) ∧
    ∃ c' : ℚ,
      (tick (.fin 1000) ⟨.fin 220, .fin 18, .fin 0, .fin 0⟩ (.fin 16)).speedCurrent = .fin c' ∧
      18 ≤ c' ∧ c' ≤ 220 + 1 / 2 ^ 42 :=
  have hd : frameDelta ⟨.fin 220, .fin 18, .fin 0, .fin 0⟩ (.fin 16)
      = .fin (1152921504606847 / 2 ^ 56) := by decide!
  have h := smoothing_within_rounding (.fin 1000) ⟨.fin 220, .fin 18, .fin 0, .fin 0⟩ (.fin 16)
    18 220 (1152921504606847 / 2 ^ 56) rfl rfl isDouble_18 (by norm_num) (by norm_num) hd
    (by norm_num)
  ⟨isDouble_18, hd, h.elim fun c' hc' =>
    ⟨c', hc'.1, hc'.2.2.1 (by norm_num), by
      have := hc'.2.2.2.2.2.2
      rwa [max_eq_right (by norm_num : (18 : ℚ) ≤ 220)] at this⟩⟩

/-! ## C4: the pointer-move formula on binary64 numbers -/

/-- C4, as stated, fails on the code at `t = 0`: a `pointermove` at the top
edge of the monitor (`clientY = top = 10`, height 300) has fraction 0 and sets
`speedTarget` to 78.60000000000001, which is `5530983292364391 / 2^46`, while
the number 78.6 is `5530983292364390 / 2^46`. -/
theorem pointermove_at_top_not_exact :
    pointerFraction (.fin 10) ⟨.fin 10, .fin 300⟩ = .fin 0 ∧
    (pointermove (init (.fin 0)) (.fin 10) ⟨.fin 10, .fin 300⟩).speedTarget
      = .fin (5530983292364391 / 2 ^ 46) ∧
    round64 (393 / 5) = .fin (5530983292364390 / 2 ^ 46) ∧
    (pointermove (init (.fin 0)) (.fin 10) ⟨.fin 10, .fin 300⟩).speedTarget ≠ round64 (393 / 5) ∧
    (pointermove (init (.fin 0)) (.fin 10) ⟨.fin 10, .fin 300⟩).speedTarget ≠ .fin (393 / 5) := by
  decide!

/-- C4, amended: for every monitor rectangle of positive height `h` and every
pointer `clientY`, with `y = clamp(clientY - top, 0, h)` and `t = y / h`, the
`pointermove` handler sets
`speedTarget = clamp(SPEED_SLOW + (SPEED_FAST - SPEED_SLOW) * (1 - |t - 0.7|), SPEED_SLOW, SPEED_FAST)`,
every operator being the rounding one of the language; `t = 0.7` yields
`speedTarget = 220` and `t = 0` yields `speedTarget = 78.60000000000001`
(`5530983292364391 / 2^46`, one rounding unit above 78.6). -/
theorem pointermove_formula (s : State) (clientY : Num) (r : Rect)
    (hr : lt (.fin 0) r.height = true) :
    (pointermove s clientY r).speedTarget =
      clampSpec
        (add SPEED_SLOW (mul (sub SPEED_FAST SPEED_SLOW)
          (sub (.fin 1) (mathAbs (sub
            (div (clampSpec (sub clientY r.top) (.fin 0) r.height) r.height)
            (round64 (7 / 10)))))))
        SPEED_SLOW SPEED_FAST ∧
    (div (clampSpec (sub clientY r.top) (.fin 0) r.height) r.height = round64 (7 / 10) →
      (pointermove s clientY r).speedTarget = .fin 220) ∧
    (div (clampSpec (sub clientY r.top) (.fin 0) r.height) r.height = .fin 0 →
      (pointermove s clientY r).speedTarget = .fin (5530983292364391 / 2 ^ 46)) := by
  have hle : le (.fin 0) r.height = true := by
    cases hh : r.height <;> simp [hh, lt, le] at hr ⊢
    exact hr.le
  have hy : pointerFraction clientY r =
      div (clampSpec (sub clientY r.top) (.fin 0) r.height) r.height := by
    unfold pointerFraction
    rw [mathMax_mathMin_eq_clampSpec _ _ _ hle]
  have hv : (pointermove s clientY r).speedTarget =
      clampSpec (pointerVariable (pointerFraction clientY r)) SPEED_SLOW SPEED_FAST := by
    show mathMax SPEED_SLOW (mathMin SPEED_FAST _) = _
    exact mathMax_mathMin_eq_clampSpec _ _ _ (by decide)
  rw [hv, hy]
  refine ⟨rfl, ?_, ?_⟩
  · intro h
    rw [h]
    decide!
  · intro h
    rw [h]
    decide!

theorem pointermove_formula_witness :
    lt (.fin 0) (Rect.mk (.fin 10) (.fin 300)).height = true ∧
    (pointermove (init (.fin 0)) (.fin 220) ⟨.fin 10, .fin 300⟩).speedTarget = .fin 220 ∧
    (pointermove (init (.fin 0)) (.fin 10) ⟨.fin 10, .fin 300⟩).speedTarget
      = .fin (5530983292364391 / 2 ^ 46) :=
  ⟨by decide,
    (pointermove_formula (init (.fin 0)) (.fin 220) ⟨.fin 10, .fin 300⟩ (by decide)).2.1
      (by decide!),
    (pointermove_formula (init (.fin 0)) (.fin 10) ⟨.fin 10, .fin 300⟩ (by decide)).2.2
      (by decide!)⟩

/-! ## C5: the lower bound on the current speed -/

/-- C5, as stated, fails on the code: a `pointermove` on a monitor whose
rectangle has height 0 computes `t = 0 / 0 = NaN` and sets `speedTarget` to
`NaN`; the next frame (`dt = 0.016 ≥ 0`) sets `speedCurrent` to `NaN`, for
which `speedCurrent >= 18` is false, and `setSlow` with a further frame leaves
it `NaN`. -/
theorem speedCurrent_nan_after_zero_height_move :
    (run (.fin 1000) (init (.fin 0))
      [.move (.fin 50) ⟨.fin 0, .fin 0⟩]).speedTarget = .nan ∧
    frameDelta (run (.fin 1000) (init (.fin 0)) [.move (.fin 50) ⟨.fin 0, .fin 0⟩]) (.fin 16)
      = round64 (16 / 1000) ∧
    (run (.fin 1000) (init (.fin 0))
      [.move (.fin 50) ⟨.fin 0, .fin 0⟩, .frame (.fin 16)]).speedCurrent = .nan ∧
    le SPEED_SLOW (run (.fin 1000) (init (.fin 0))
      [.move (.fin 50) ⟨.fin 0, .fin 0⟩, .frame (.fin 16)]).speedCurrent = false ∧
    (run (.fin 1000) (init (.fin 0))
      [.move (.fin 50) ⟨.fin 0, .fin 0⟩, .frame (.fin 16), .slow, .frame (.fin 32)]).speedCurrent
      = .nan := by
  decide!

/-- C5, amended: in every state reached from the initial state by any
interleaving of speed-control inputs, every `pointermove` reading finite
coordinates and a rectangle of positive height, and tick updates with frame
deltas `dt ≥ 0`, `speedCurrent` is a finite number with
`SPEED_SLOW ≤ speedCurrent` (and `speedCurrent ≤ SPEED_FAST`). -/
theorem speedCurrent_ge_slow (height t0 : Num) (evs : List Event)
    (hd : NonNegDeltas height (init t0) evs) :
    le SPEED_SLOW (run height (init t0) evs).speedCurrent = true ∧
    ∃ c : ℚ, (run height (init t0) evs).speedCurrent = .fin c ∧ 18 ≤ c ∧ c ≤ 220 := by
  obtain ⟨c, t, hc, -, -, hc1, hc2, -, -⟩ :=
    run_speedsInRange height evs (init t0) (init_speedsInRange t0) hd
  refine ⟨?_, c, hc, hc1, hc2⟩
  rw [hc]
  exact decide_eq_true hc1

theorem speedCurrent_ge_slow_witness :
    NonNegDeltas (.fin 1000) (init (.fin 0))
      [.fast, .frame (.fin 16), .move (.fin 220) ⟨.fin 10, .fin 300⟩, .slow, .frame (.fin 32)] ∧
    le SPEED_SLOW (run (.fin 1000) (init (.fin 0))
      [.fast, .frame (.fin 16), .move (.fin 220) ⟨.fin 10, .fin 300⟩, .slow,
        .frame (.fin 32)]).speedCurrent = true :=
  have hd : NonNegDeltas (.fin 1000) (init (.fin 0))
      [.fast, .frame (.fin 16), .move (.fin 220) ⟨.fin 10, .fin 300⟩, .slow,
        .frame (.fin 32)] :=
    ⟨trivial, by decide!, ⟨trivial, trivial, by show (0 : ℚ) < 300; norm_num⟩, trivial,
      by decide!, trivial⟩
  ⟨hd, (speedCurrent_ge_slow (.fin 1000) (.fin 0) _ hd).1⟩

/-! ## C6: enter, then leave, on binary64 numbers -/

/-- C6, as stated, fails on the code.  After `setFast`, one 16 ms frame,
`setFast` again and `setSlow` at once, `speedTarget` is 18 and `speedCurrent`
is not; the next frame comes 200 ms later and sets `speedCurrent` to exactly
18.  Short frames do not keep the claim either: after `setFast`, a 200 ms
frame, `setFast` and `setSlow`, eight frames of 124 ms leave `speedCurrent` at
`18 + 2^-48`; from there a 16 ms frame leaves it unchanged (not closer to 18),
and a 124 ms frame (`dt < 1/8`) sets it to exactly 18. -/
theorem slow_target_reached_or_stalled :
    (run (.fin 1000) (init (.fin 0)) [.fast, .frame (.fin 16), .fast, .slow]).speedTarget
      = .fin 18 ∧
    (run (.fin 1000) (init (.fin 0)) [.fast, .frame (.fin 16), .fast, .slow]).speedCurrent
      ≠ .fin 18 ∧
    frameDelta (run (.fin 1000) (init (.fin 0)) [.fast, .frame (.fin 16), .fast, .slow])
      (.fin 216) = round64 (1 / 5) ∧
    (tick (.fin 1000)
      (run (.fin 1000) (init (.fin 0)) [.fast, .frame (.fin 16), .fast, .slow])
      (.fin 216)).speedCurrent = .fin 18 ∧
    (run (.fin 1000) (init (.fin 0))
      [.fast, .frame (.fin 200), .fast, .slow, .frame (.fin 324), .frame (.fin 448),
        .frame (.fin 572), .frame (.fin 696), .frame (.fin 820), .frame (.fin 944),
        .frame (.fin 1068), .frame (.fin 1192)]).speedTarget = .fin 18 ∧
    (run (.fin 1000) (init (.fin 0))
      [.fast, .frame (.fin 200), .fast, .slow, .frame (.fin 324), .frame (.fin 448),
        .frame (.fin 572), .frame (.fin 696), .frame (.fin 820), .frame (.fin 944),
        .frame (.fin 1068), .frame (.fin 1192)]).speedCurrent = .fin (18 + 1 / 2 ^ 48) ∧
    frameDelta (run (.fin 1000) (init (.fin 0))
      [.fast, .frame (.fin 200), .fast, .slow, .frame (.fin 324), .frame (.fin 448),
        .frame (.fin 572), .frame (.fin 696), .frame (.fin 820), .frame (.fin 944),
        .frame (.fin 1068), .frame (.fin 1192)]) (.fin 1208) = round64 (16 / 1000) ∧
    (tick (.fin 1000) (run (.fin 1000) (init (.fin 0))
      [.fast, .frame (.fin 200), .fast, .slow, .frame (.fin 324), .frame (.fin 448),
        .frame (.fin 572), .frame (.fin 696), .frame (.fin 820), .frame (.fin 944),
        .frame (.fin 1068), .frame (.fin 1192)]) (.fin 1208)).speedCurrent = .fin (18 + 1 / 2 ^ 48) ∧
    frameDelta (run (.fin 1000) (init (.fin 0))
      [.fast, .frame (.fin 200), .fast, .slow, .frame (.fin 324), .frame (.fin 448),
        .frame (.fin 572), .frame (.fin 696), .frame (.fin 820), .frame (.fin 944),
        .frame (.fin 1068), .frame (.fin 1192)]) (.fin 1316) = round64 (124 / 1000) ∧
    lt (round64 (124 / 1000)) (.fin (1 / 8)) = true ∧
    (tick (.fin 1000) (run (.fin 1000) (init (.fin 0))
      [.fast, .frame (.fin 200), .fast, .slow, .frame (.fin 324), .frame (.fin 448),
        .frame (.fin 572), .frame (.fin 696), .frame (.fin 820), .frame (.fin 944),
        .frame (.fin 1068), .frame (.fin 1192)]) (.fin 1316)).speedCurrent = .fin 18 := by
  decide!

/-- C6, amended: after `setFast` immediately followed by `setSlow`,
`speedTarget = 18`; and in every subsequent tick with finite `dt ≥ 0` that
starts with `speedTarget = 18` and `18 ≤ speedCurrent ≤ 220`, `speedCurrent`
after the tick satisfies `18 ≤ new ≤ old` and
`new - 18 ≤ (1 - min(1, dt * 8)) * (old - 18) + 2^-42`: it approaches 18
geometrically down to rounding level, never moves away from 18 and never goes
below it.  A tick with `dt ≥ 1/8` sets `speedCurrent` to exactly 18 in that
single frame. -/
theorem approach_to_slow (height : Num) (s0 s : State) (now : Num) (c d : ℚ)
    (ht : s.speedTarget = .fin 18) (hc : s.speedCurrent = .fin c) (hcd : IsDouble c)
    (h18 : 18 ≤ c) (h220 : c ≤ 220) (hd : frameDelta s now = .fin d) (hd0 : 0 ≤ d) :
    (setSlow (setFast s0)).speedTarget = .fin 18 ∧
    ∃ c' : ℚ, (tick height s now).speedCurrent = .fin c' ∧ 18 ≤ c' ∧ c' ≤ c ∧
      c' - 18 ≤ (1 - Min.min 1 (d * 8)) * (c - 18) + 1 / 2 ^ 42 ∧
      (1 / 8 ≤ d → c' = 18) := by
  refine ⟨rfl, ?_⟩
  have hcr : |c| ≤ 220 := abs_le.2 ⟨by linarith, h220⟩
  have htr : |(18 : ℚ)| ≤ 220 := by norm_num
  obtain ⟨k, hk, hk0, hk1, hkx, hkone⟩ := factor_spec hd0
  obtain ⟨hsm, -, -⟩ := @smooth_fin c 18 k hcr htr hk0 hk1
  have herr := smooth_err hcr htr hk0 hk1 hkx
  have hx1 : Min.min 1 (d * 8) ≤ (1 : ℚ) := min_le_left _ _
  have hex := rnd_eighteen_sub hcd h18 h220
  have hcdr : rnd c = c := hcd
  have h18r : rnd 18 = 18 := isDouble_18
  rw [hex] at hsm herr
  have hm0 : rnd ((18 - c) * k) ≤ 0 := by
    have := rnd_mono (show (18 - c) * k ≤ (0 : ℚ) from
      mul_nonpos_of_nonpos_of_nonneg (by linarith) hk0)
    rwa [rnd_zero] at this
  have hm1 : 18 - c ≤ rnd ((18 - c) * k) := by
    have := rnd_mono (show 18 - c ≤ (18 - c) * k by nlinarith)
    rwa [hex] at this
  refine ⟨rnd (c + rnd ((18 - c) * k)), ?_, ?_, ?_, ?_, ?_⟩
  · rw [tick_speedCurrent, hc, ht, hd, hk]; exact hsm
  · have := rnd_mono (show (18 : ℚ) ≤ c + rnd ((18 - c) * k) by linarith)
    rwa [h18r] at this
  · have := rnd_mono (show c + rnd ((18 - c) * k) ≤ c by linarith)
    rwa [hcdr] at this
  · obtain ⟨-, u⟩ := abs_le.1 herr
    nlinarith
  · intro hlong
    have hk' : k = 1 := hkone (by linarith)
    rw [hk', mul_one, hex]
    rw [show c + (18 - c) = 18 by ring, h18r]

theorem approach_to_slow_witness :
    (setSlow (setFast (State.mk (.fin 18) (.fin 220) (.fin 0) (.fin 0)))).speedTarget = .fin 18 ∧
    IsDouble 220 ∧
    frameDelta (setSlow (setFast (State.mk (.fin 18) (.fin 220) (.fin 0) (.fin 0)))) (.fin 16)
      = .fin (1152921504606847 / 2 ^ 56) ∧
    ∃ c' : ℚ,
      (tick (.fin 1000) (setSlow (setFast (State.mk (.fin 18) (.fin 220) (.fin 0) (.fin 0))))
        (.fin 16)).speedCurrent = .fin c' ∧ 18 ≤ c' ∧ c' ≤ 220 :=
  have h220 : IsDouble 220 := by unfold IsDouble; decide!
  have hd : frameDelta (setSlow (setFast (State.mk (.fin 18) (.fin 220) (.fin 0) (.fin 0))))
      (.fin 16) = .fin (1152921504606847 / 2 ^ 56) := by decide!
  have h := approach_to_slow (.fin 1000) (State.mk (.fin 18) (.fin 220) (.fin 0) (.fin 0))
    (setSlow (setFast (State.mk (.fin 18) (.fin 220) (.fin 0) (.fin 0)))) (.fin 16)
    220 (1152921504606847 / 2 ^ 56) rfl rfl h220 (by norm_num) (le_refl _) hd (by norm_num)
  ⟨h.1, h220, hd, h.2.elim fun c' hc' => ⟨c', hc'.1, hc'.2.1, hc'.2.2.1⟩⟩

end Binary64

end CodeMonitor
